import Mathlib

/-!
Verification of the `simd-mcaptcha` solver core (`src/lib.rs`) against its
natural-language specification.

All machine integers are modelled as `Nat` with explicit reductions `% 2^32`
(resp. `% 2^64`, `% 2^128`) exactly where the Rust code can wrap.  Byte
strings are `List Nat` whose elements are byte values.  The message template
of a solver is kept as its 64 bytes in big-endian semantic order (the order
of the scalar `[u8; 64]` buffer in `new`); the source's
`SWAP_DWORD_BYTE_ORDER` table exists precisely so that the byte writes into
the `[u32; 16]` view address these big-endian byte positions, so a write at
`SWAP_DWORD_BYTE_ORDER[j]` in the little-endian word view is a write at
semantic byte `j` here, and `from_be_bytes` is the `bytesToWords` below.
-/

set_option maxRecDepth 100000

namespace S2P

/-- Right rotation of a 32-bit word (operand already reduced `% 2^32`). -/
def rotr (n x : Nat) : Nat := (x % 2^n) * 2^(32 - n) + x / 2^n

/-- Bitwise complement of a 32-bit word. -/
def bnot32 (x : Nat) : Nat := 2^32 - 1 - x

/-- Modelled from the spec (§4.A; `src/sha256.rs` is not under `src/`):
`Ch(x,y,z)` of FIPS 180-4. -/
def ch (x y z : Nat) : Nat := Nat.xor (Nat.land x y) (Nat.land (bnot32 x) z)

/-- Modelled from the spec (§4.A): `Maj(x,y,z)` of FIPS 180-4. -/
def maj (x y z : Nat) : Nat :=
  Nat.xor (Nat.xor (Nat.land x y) (Nat.land x z)) (Nat.land y z)

/-- Modelled from the spec (§4.A): `Σ₀` of FIPS 180-4. -/
def bsig0 (x : Nat) : Nat := Nat.xor (Nat.xor (rotr 2 x) (rotr 13 x)) (rotr 22 x)

/-- Modelled from the spec (§4.A): `Σ₁` of FIPS 180-4. -/
def bsig1 (x : Nat) : Nat := Nat.xor (Nat.xor (rotr 6 x) (rotr 11 x)) (rotr 25 x)

/-- Modelled from the spec (§4.A): `σ₀` of FIPS 180-4. -/
def ssig0 (x : Nat) : Nat := Nat.xor (Nat.xor (rotr 7 x) (rotr 18 x)) (x / 2^3)

/-- Modelled from the spec (§4.A): `σ₁` of FIPS 180-4. -/
def ssig1 (x : Nat) : Nat := Nat.xor (Nat.xor (rotr 17 x) (rotr 19 x)) (x / 2^10)

/-- The SHA-256 initial hash value (also literally `prefix_state`'s initial
value in both `new` implementations, src/lib.rs:89-92). -/
def IV256 : List Nat :=
  [1779033703, 3144134277, 1013904242, 2773480762,
   1359893119, 2600822924, 528734635, 1541459225]

/-- Modelled from the spec (§4.A): the 64 SHA-256 round constants. -/
def K256 : List Nat :=
  [1116352408, 1899447441, 3049323471, 3921009573,
   961987163, 1508970993, 2453635748, 2870763221,
   3624381080, 310598401, 607225278, 1426881987,
   1925078388, 2162078206, 2614888103, 3248222580,
   3835390401, 4022224774, 264347078, 604807628,
   770255983, 1249150122, 1555081692, 1996064986,
   2554220882, 2821834349, 2952996808, 3210313671,
   3336571891, 3584528711, 113926993, 338241895,
   666307205, 773529912, 1294757372, 1396182291,
   1695183700, 1986661051, 2177026350, 2456956037,
   2730485921, 2820302411, 3259730800, 3345764771,
   3516065817, 3600352804, 4094571909, 275423344,
   430227734, 506948616, 659060556, 883997877,
   958139571, 1322822218, 1537002063, 1747873779,
   1955562222, 2024104815, 2227730452, 2361852424,
   2428436474, 2756734187, 3204031479, 3329325298]

/-- One step of the message-schedule recurrence: append
`σ₁(w[n-2]) + w[n-7] + σ₀(w[n-15]) + w[n-16] mod 2^32`. -/
def scheduleStep (w : List Nat) : List Nat :=
  w ++ [(ssig1 (w.getD (w.length - 2) 0) + w.getD (w.length - 7) 0 +
         ssig0 (w.getD (w.length - 15) 0) + w.getD (w.length - 16) 0) % 2^32]

/-- Iterate `scheduleStep` a given number of times. -/
def expandSchedule : Nat → List Nat → List Nat
  | 0, w => w
  | n + 1, w => expandSchedule n (scheduleStep w)

/-- Modelled from the spec (§4.A `expand_schedule` / `do_message_schedule`):
fill words 16..64 of the schedule from the first 16 block words. -/
def do_message_schedule (w : List Nat) : List Nat := expandSchedule 48 (w.take 16)

/-- One SHA-256 round on the state `[a,b,c,d,e,f,g,h]` with round constant
`k` and schedule word `w`. -/
def shaRound (st : List Nat) (kw : Nat × Nat) : List Nat :=
  let a := st.getD 0 0
  let b := st.getD 1 0
  let c := st.getD 2 0
  let d := st.getD 3 0
  let e := st.getD 4 0
  let f := st.getD 5 0
  let g := st.getD 6 0
  let h := st.getD 7 0
  let t1 := (h + bsig1 e + ch e f g + kw.1 + kw.2) % 2^32
  let t2 := (bsig0 a + maj a b c) % 2^32
  [(t1 + t2) % 2^32, a, b, c, (d + t1) % 2^32, e, f, g]

/-- Modelled from the spec (§4.B): the 64 rounds of SHA-256 over a
pre-expanded 64-word schedule, WITHOUT the final feedback addition.  This is
one lane of `compress_16block_avx512_without_feedback` (and, with a
broadcast schedule, of `compress_16block_avx512_bcst_without_feedback`). -/
def compressNF (st : List Nat) (sched : List Nat) : List Nat :=
  (K256.zip sched).foldl shaRound st

/-- Modelled from the spec (§4.A `compress_block`): standard FIPS-180-4
single-block compression, i.e. the rounds followed by the feedback add. -/
def compress_block_reference (st : List Nat) (block : List Nat) : List Nat :=
  List.zipWith (fun a b => (a + b) % 2^32) st (compressNF st (do_message_schedule block))

/-- Group a byte list into 32-bit words, big-endian (the
`u32::from_be_bytes` conversions in `new`). -/
def bytesToWords : List Nat → List Nat
  | b0 :: b1 :: b2 :: b3 :: rest => (b0 * 2^24 + b1 * 2^16 + b2 * 2^8 + b3) :: bytesToWords rest
  | _ => []

/-- Big-endian 8-byte encoding of a number (`u64::to_be_bytes`). -/
def be64 (v : Nat) : List Nat :=
  [v / 2^56 % 256, v / 2^48 % 256, v / 2^40 % 256, v / 2^32 % 256,
   v / 2^24 % 256, v / 2^16 % 256, v / 2^8 % 256, v % 256]

/-- SHA-256 padding (FIPS 180-4 §5.1.1): the byte `0x80`, zeros to 56 mod
64, then the 64-bit big-endian bit length. -/
def sha256pad (msg : List Nat) : List Nat :=
  msg ++ [128] ++ List.replicate ((119 - msg.length % 64) % 64) 0 ++ be64 (msg.length * 8)

def chunkGo : Nat → List Nat → List (List Nat)
  | 0, _ => []
  | n + 1, l => if l.isEmpty then [] else l.take 64 :: chunkGo n (l.drop 64)

/-- Split a list into chunks of 64 (the padded message into blocks), with
the chunk count (`⌈length / 64⌉`) made explicit so that the recursion is
structural. -/
def chunk64 (l : List Nat) : List (List Nat) := chunkGo ((l.length + 63) / 64) l

theorem chunk64_nil : chunk64 [] = [] := rfl

theorem chunk64_cons (l : List Nat) (h : l ≠ []) :
    chunk64 l = l.take 64 :: chunk64 (l.drop 64) := by
  unfold chunk64
  have hlen : 1 ≤ l.length := List.length_pos.mpr h
  have h1 : (l.length + 63) / 64 = ((l.drop 64).length + 63) / 64 + 1 := by
    simp only [List.length_drop]
    omega
  rw [h1]
  simp only [chunkGo]
  rw [if_neg (by simpa [List.isEmpty_iff] using h)]

/-- Fold the compression function over a list of 64-byte blocks. -/
def sha256run (st : List Nat) (blocks : List (List Nat)) : List Nat :=
  blocks.foldl (fun s b => compress_block_reference s (bytesToWords b)) st

/-- Modelled from the spec (§6 proof contract): the full SHA-256 state after
hashing a byte string (pad, split into blocks, compress from the IV). -/
def sha256full (msg : List Nat) : List Nat := sha256run IV256 (chunk64 (sha256pad msg))

/-- The big-endian 128-bit reading of the first four state words (first 16
digest bytes), as composed by the `<< 96 | ... ` expression at
src/lib.rs:396-399. -/
def top128 (st : List Nat) : Nat :=
  st.getD 0 0 * 2^96 + st.getD 1 0 * 2^64 + st.getD 2 0 * 2^32 + st.getD 3 0

/-- The 128-bit big-endian composition of a four-word target
(`[u32; 4]`, word 0 most significant). -/
def target128 (t : List Nat) : Nat :=
  t.getD 0 0 * 2^96 + t.getD 1 0 * 2^64 + t.getD 2 0 * 2^32 + t.getD 3 0

/-- The shared prefix-conditioning loop of both `new` implementations
(src/lib.rs:97-111, 440-454): consume 64-byte blocks with the scalar
compression, counting them, until fewer than 64 bytes remain.  Returns
(state, complete_blocks_before, remaining tail). -/
def absorbGo : Nat → List Nat → Nat → List Nat → List Nat × Nat × List Nat
  | 0, st, c, pfx => (st, c, pfx)
  | n + 1, st, c, pfx =>
    if 64 ≤ pfx.length then
      absorbGo n (compress_block_reference st (bytesToWords (pfx.take 64))) (c + 1) (pfx.drop 64)
    else (st, c, pfx)

/-- The block-absorbing loop, with its iteration count (`pfx.length / 64`,
one per complete 64-byte block) made explicit so that the recursion is
structural. -/
def absorb (st : List Nat) (c : Nat) (pfx : List Nat) : List Nat × Nat × List Nat :=
  absorbGo (pfx.length / 64) st c pfx

theorem absorb_of_lt (st : List Nat) (c : Nat) (pfx : List Nat) (h : pfx.length < 64) :
    absorb st c pfx = (st, c, pfx) := by
  unfold absorb
  rw [Nat.div_eq_of_lt h]
  rfl

theorem absorb_step (st : List Nat) (c : Nat) (pfx : List Nat) (h : 64 ≤ pfx.length) :
    absorb st c pfx =
      absorb (compress_block_reference st (bytesToWords (pfx.take 64))) (c + 1)
        (pfx.drop 64) := by
  unfold absorb
  have h1 : pfx.length / 64 = (pfx.drop 64).length / 64 + 1 := by
    simp only [List.length_drop]
    omega
  rw [h1]
  simp only [absorbGo, if_pos h]

/-- The `nonce_addend` accumulator of the filler loops
(`nonce_addend = nonce_addend * 10 + 1` once per filler byte,
src/lib.rs:117-121 and 464-469): the repunit with `m` ones.  All values that
occur are far below `2^64`, so the `u64` arithmetic never wraps. -/
def fillerAddend : Nat → Nat
  | 0 => 0
  | m + 1 => fillerAddend m * 10 + 1

/-- The single-block message template (src/lib.rs:138-154): the tail bytes,
nine zero bytes for the digit window, the padding byte `0x80`, zeros, and
the big-endian bit count computed as if all nine digit bytes were present.
Only used with `tail.length ≤ 46`. -/
def mkTemplate (tail : List Nat) (blocks : Nat) : List Nat :=
  tail ++ List.replicate 9 0 ++ [128] ++ List.replicate (46 - tail.length) 0 ++
    be64 ((blocks * 64 + tail.length + 9) * 8)

/-- State of `SingleBlockSolver16Way` (src/lib.rs:72-82); `message` is kept
as its 64 bytes in big-endian semantic order (see the header comment). -/
structure SingleBlockSolver16Way where
  prefix_state : List Nat
  message : List Nat
  digit_index : Nat
  nonce_addend : Nat
  deriving Repr, DecidableEq

/-- The tail phase of `SingleBlockSolver16Way::new` (src/lib.rs:112-168),
after all full blocks are absorbed: if the tail plus 9 digit bytes plus 9
padding bytes overflows one block, absorb one extra block padded with
ASCII `'1'` filler and record `nonce_addend = filler value * 10^9` (`None`
if that `checked_mul` overflows `u64`); build the message template. -/
def SingleBlockSolver16Way.newTail (st0 : List Nat) (c0 : Nat) (tail : List Nat) :
    Option SingleBlockSolver16Way :=
  if 64 < tail.length + 9 + 9 then
    if fillerAddend (64 - tail.length) * 1000000000 < 2^64 then
      some { prefix_state :=
               compress_block_reference st0
                 (bytesToWords (tail ++ List.replicate (64 - tail.length) 49)),
             message := mkTemplate [] (c0 + 1),
             digit_index := 0,
             nonce_addend := fillerAddend (64 - tail.length) * 1000000000 }
    else none
  else
    some { prefix_state := st0, message := mkTemplate tail c0,
           digit_index := tail.length, nonce_addend := 0 }

/-- Embedding of `SingleBlockSolver16Way::new` (src/lib.rs:87-169): the
block-absorbing loop followed by the tail phase. -/
def SingleBlockSolver16Way.new (pfx : List Nat) : Option SingleBlockSolver16Way :=
  let a := absorb IV256 0 pfx
  SingleBlockSolver16Way.newTail a.1 a.2.1 a.2.2

/-- Character `i` of the 90-byte string
`b"111111111122222222223333333333...9999999999"` used for the high lane-ID
digit (src/lib.rs:190-192): the ASCII tens digit of `10 + i`. -/
def laneChar0 (i : Nat) : Nat := 48 + (10 + i) / 10 % 10

/-- Character `i` of the repeated `b"0123456789"` string used for the low
lane-ID digit (src/lib.rs:194-196): the ASCII units digit of `10 + i`. -/
def laneChar1 (i : Nat) : Nat := 48 + (10 + i) % 10

/-- The write loop for the 7 inner-key digits (src/lib.rs:277-284): for
`i = 6, 5, ..., 0` write `key % 10 + '0'` at semantic byte
`digit_index + i + 2` and divide `key` by 10 (so byte `digit_index + 2 + i`
receives the `10^(6-i)` digit). -/
def stampGo (di : Nat) : Nat → List Nat → Nat → List Nat
  | 0, m, _ => m
  | i + 1, m, key => stampGo di i (m.set (di + 2 + i) (key % 10 + 48)) (key / 10)

/-- Write the 7 zero-padded decimal digits of `k` into the digit window. -/
def stampInner (m : List Nat) (di k : Nat) : List Nat := stampGo di 7 m k

/-- The success-path stamping of the two lane-ID digits as plain byte
writes (src/lib.rs:323-332): `nonce_prefix / 10` and `nonce_prefix % 10`. -/
def stampLaneSet (m : List Nat) (di np : Nat) : List Nat :=
  ((m.set di (np / 10 + 48)).set (di + 1) (np % 10 + 48))

/-- The candidate message of lane `lane` in prefix set `p` at inner key `k`
(the hot-loop lane bundle, src/lib.rs:232-294): the template with the inner
digits written, whose two lane-ID bytes are OR-combined with the
single-byte masks `laneChar0 / laneChar1` at index `p * 16 + lane`.  The
source ORs `char << ((3 - byte_idx) * 8)` into the big-endian word holding
the byte, which is exactly a byte-wise `Nat.lor` at that semantic byte. -/
def candMsg (s : SingleBlockSolver16Way) (p k lane : Nat) : List Nat :=
  let m := stampInner s.message s.digit_index k
  let m := m.set s.digit_index (Nat.lor (m.getD s.digit_index 0) (laneChar0 (p * 16 + lane)))
  m.set (s.digit_index + 1) (Nat.lor (m.getD (s.digit_index + 1) 0) (laneChar1 (p * 16 + lane)))

/-- The acceptance predicate of one lane (src/lib.rs:296-317): run the
16-way compression without feedback, reconstitute output word A with one
broadcast add of the pre-loop `prefix_state[0]`, and compare
strictly-greater (unsigned) against the target's top word. -/
def laneAccept (s : SingleBlockSolver16Way) (t0 p k lane : Nat) : Bool :=
  let stNF := compressNF s.prefix_state (do_message_schedule (bytesToWords (candMsg s p k lane)))
  decide (t0 < (stNF.getD 0 0 + s.prefix_state.getD 0 0) % 2^32)

/-- Generic first-hit search: try `f` at `i, i+1, ...` for `fuel` indices
and return the first index where it fires, with its value.  This is the
shape of every search loop in `solve` (ascending `p`, ascending
`inner_key`, and the trailing-zero count over the lane mask, which yields
the lowest-indexed winning lane). -/
def findFirst (f : Nat → Option α) : Nat → Nat → Option (Nat × α)
  | 0, _ => none
  | fuel + 1, i =>
    match f i with
    | some a => some (i, a)
    | none => findFirst f fuel (i + 1)

/-- The lowest-indexed winning lane at `(p, k)` (`_tzcnt_u32` over the
16-bit acceptance mask, src/lib.rs:319-320). -/
def firstLane (s : SingleBlockSolver16Way) (t0 p k : Nat) : Option Nat :=
  (findFirst (fun lane => if laneAccept s t0 p k lane then some lane else none) 16 0).map (·.1)

/-- The nested search of `solve_inner` (src/lib.rs:198-341):
`prefix_set_index` ascending over `0..5`, `inner_key` ascending over
`0..10_000_000`, first winning lane.  Returns `(p, inner_key, lane)`. -/
def firstHit (s : SingleBlockSolver16Way) (t0 : Nat) : Option (Nat × Nat × Nat) :=
  (findFirst (fun p => findFirst (fun k => firstLane s t0 p k) 10000000 0) 5 0).map
    (fun x => (x.1, x.2.1, x.2.2))

/-- Embedding of `SingleBlockSolver16Way::solve` (src/lib.rs:171-401): on
the first hit, stamp the lane-ID digits into the template, recompute the
digest once with the scalar compression, and return
`(nonce_prefix * 10^7 + inner_key + nonce_addend, top 128 digest bits)`.
All the `u64` arithmetic here stays far below `2^64`. -/
def SingleBlockSolver16Way.solve (s : SingleBlockSolver16Way) (target : List Nat) :
    Option (Nat × Nat) :=
  match firstHit s (target.getD 0 0) with
  | none => none
  | some (p, k, lane) =>
    let np := 10 + 16 * p + lane
    let msg := stampLaneSet (stampInner s.message s.digit_index k) s.digit_index np
    let st := compress_block_reference s.prefix_state (bytesToWords msg)
    some (np * 10^7 + k + s.nonce_addend, top128 st)

/-- Number of iterations of the double-block filler loop
`while (ptr + 2) % 8 != 0` started at `ptr` (src/lib.rs:464-469): the
distance to the next offset `≡ 6 (mod 8)`. -/
def fillerSteps (ptr : Nat) : Nat := (8 - (ptr + 2) % 8) % 8

/-- The body of the double-block filler loop, run a fixed number of times:
each step bumps the addend (`* 10 + 1`), writes ASCII `'1'` through
`get_mut(ptr)?` (`none` once `ptr` is out of bounds), and increments
`ptr`.  Returns (message, ptr, addend). -/
def fillerGo : Nat → List Nat → Nat → Nat → Option (List Nat × Nat × Nat)
  | 0, m, ptr, a => some (m, ptr, a)
  | n + 1, m, ptr, a =>
    if ptr < m.length then fillerGo n (m.set ptr 49) (ptr + 1) (a * 10 + 1) else none

/-- The double-block filler loop (src/lib.rs:463-469). -/
def fillerLoop (m : List Nat) (ptr : Nat) : Option (List Nat × Nat × Nat) :=
  fillerGo (fillerSteps ptr) m ptr 0

/-- State of `DoubleBlockSolver16Way` (src/lib.rs:407-418); `message` is
the 64 bytes of the first (data) block in big-endian semantic order. -/
structure DoubleBlockSolver16Way where
  prefix_state : List Nat
  message : List Nat
  terminal_message_schedule : List Nat
  nonce_addend : Nat
  deriving Repr, DecidableEq

/-- The constant `DoubleBlockSolver16Way::DIGIT_IDX` (src/lib.rs:421). -/
def DoubleBlockSolver16Way.DIGIT_IDX : Nat := 54

/-- The tail phase of `DoubleBlockSolver16Way::new` (src/lib.rs:456-509):
pad the tail with ASCII `'1'` until the offset is `≡ 6 (mod 8)` (failing
if `get_mut` runs off the 64-byte buffer), multiply the addend by `10^9`,
refuse unless the offset is exactly `54`; then byte 63 becomes `0x80` and
the terminal (padding-only) block's 64-word schedule is precomputed from
its two bit-length words. -/
def DoubleBlockSolver16Way.newTail (st0 : List Nat) (c0 : Nat) (tail : List Nat) :
    Option DoubleBlockSolver16Way :=
  (fillerLoop (tail ++ List.replicate (64 - tail.length) 0) tail.length).bind fun mpa =>
    if mpa.2.1 = DoubleBlockSolver16Way.DIGIT_IDX then
      some { prefix_state := st0,
             message := mpa.1.set 63 128,
             terminal_message_schedule :=
               expandSchedule 48 (List.replicate 14 0 ++
                 [(c0 * 64 + 63) * 8 / 2^32 % 2^32, (c0 * 64 + 63) * 8 % 2^32]),
             nonce_addend := mpa.2.2 * 1000000000 }
    else none

/-- Embedding of `DoubleBlockSolver16Way::new` (src/lib.rs:427-510): the
block-absorbing loop followed by the tail phase. -/
def DoubleBlockSolver16Way.new (pfx : List Nat) : Option DoubleBlockSolver16Way :=
  let a := absorb IV256 0 pfx
  DoubleBlockSolver16Way.newTail a.1 a.2.1 a.2.2

/-- Word 14 of the double-block lane bundle at inner key `k`
(src/lib.rs:556-564): four digit bytes, units first, OR `b"0000"`; the OR
with `0x30` on sub-10 digit bytes is the addition written out here. -/
def dCum0 (k : Nat) : Nat :=
  (k % 10 + 48) * 2^24 + (k / 10 % 10 + 48) * 2^16 + (k / 100 % 10 + 48) * 2^8 +
    (k / 1000 % 10 + 48)

/-- Word 15 of the double-block lane bundle at inner key `k`
(src/lib.rs:565-572): three digit bytes then the padding byte `0x80`. -/
def dCum1 (k : Nat) : Nat :=
  (k / 10000 % 10 + 48) * 2^24 + (k / 100000 % 10 + 48) * 2^16 +
    (k / 1000000 % 10 + 48) * 2^8 + 128

/-- The lane-ID word of the double-block bundle (src/lib.rs:517-521,
546-552): both lane-ID characters combined in one word, at byte offsets 2
and 3 (shifts 8 and 0).  Note this word contains ONLY the two lane-ID
bytes: the template's bytes 52 and 53 are not OR-ed in (the source comments
`// 13 is always zero for a valid construction`). -/
def dLaneWord (i : Nat) : Nat := laneChar0 i * 2^8 + laneChar1 i

/-- The 16 words of the first block as hashed by the double-block hot loop
for lane `lane` of prefix set `p` at inner key `k` (src/lib.rs:523-577):
broadcast words 0..12 of the template, then `dLaneWord`, `dCum0`,
`dCum1`. -/
def dCandWords (s : DoubleBlockSolver16Way) (p k lane : Nat) : List Nat :=
  (bytesToWords s.message).take 13 ++ [dLaneWord (p * 16 + lane), dCum0 k, dCum1 k]

/-- The double-block acceptance predicate (src/lib.rs:574-598): compress
block 1 without feedback, do the full feedback add, save word A, compress
the precomputed terminal schedule without feedback, add back the saved A,
compare against the target's top word. -/
def dLaneAccept (s : DoubleBlockSolver16Way) (t0 p k lane : Nat) : Bool :=
  let st1 := List.zipWith (fun a b => (a + b) % 2^32) s.prefix_state
    (compressNF s.prefix_state (do_message_schedule (dCandWords s p k lane)))
  let st2 := compressNF st1 s.terminal_message_schedule
  decide (t0 < (st2.getD 0 0 + st1.getD 0 0) % 2^32)

/-- The lowest-indexed winning lane for the double-block solver. -/
def dFirstLane (s : DoubleBlockSolver16Way) (t0 p k : Nat) : Option Nat :=
  (findFirst (fun lane => if dLaneAccept s t0 p k lane then some lane else none) 16 0).map (·.1)

/-- The double-block nested search (src/lib.rs:544-554):
`prefix_set_index` ascending, `inner_key` ascending, first winning lane. -/
def dFirstHit (s : DoubleBlockSolver16Way) (t0 : Nat) : Option (Nat × Nat × Nat) :=
  (findFirst (fun p => findFirst (fun k => dFirstLane s t0 p k) 10000000 0) 5 0).map
    (fun x => (x.1, x.2.1, x.2.2))

/-- The digit-reversal of the inner key used to reconstruct the nonce
suffix (src/lib.rs:626-632): seven times `ns = ns * 10 + key % 10`. -/
def rev7 : Nat → Nat → Nat → Nat
  | 0, ns, _ => ns
  | n + 1, ns, key => rev7 n (ns * 10 + key % 10) (key / 10)

/-- The final first-block message on the success path (src/lib.rs:604-614):
words 14 and 15 replaced by `dCum0 / dCum1` (bytes 56..63), then the two
lane-ID digits stamped at bytes 54 and 55. -/
def dFinalMsg (s : DoubleBlockSolver16Way) (np k : Nat) : List Nat :=
  stampLaneSet
    (s.message.take 56 ++
      [k % 10 + 48, k / 10 % 10 + 48, k / 100 % 10 + 48, k / 1000 % 10 + 48,
       k / 10000 % 10 + 48, k / 100000 % 10 + 48, k / 1000000 % 10 + 48, 128])
    DoubleBlockSolver16Way.DIGIT_IDX np

/-- Embedding of `DoubleBlockSolver16Way::solve` (src/lib.rs:512-648): on
the first hit, rebuild the scalar message, recompute both blocks with the
scalar compression (the second block being the first 16 words of the
terminal schedule), and return
`(nonce_prefix * 10^7 + reversed inner key + nonce_addend, top 128 bits)`. -/
def DoubleBlockSolver16Way.solve (s : DoubleBlockSolver16Way) (target : List Nat) :
    Option (Nat × Nat) :=
  match dFirstHit s (target.getD 0 0) with
  | none => none
  | some (p, k, lane) =>
    let np := 10 + 16 * p + lane
    let st1 := compress_block_reference s.prefix_state (bytesToWords (dFinalMsg s np k))
    let st2 := compress_block_reference st1 (s.terminal_message_schedule.take 16)
    some (np * 10^7 + rev7 7 0 k + s.nonce_addend, top128 st2)

/-- Embedding of `compute_target` (src/lib.rs:45-47):
`u128::max_value() - u128::max_value() / difficulty_factor as u128`.
The `u128` division panics on a zero divisor (`none` here); the subtraction
is the Rust `u128` wrapping subtraction, written out mod `2^128`. -/
def compute_target (difficulty_factor : Nat) : Option Nat :=
  if difficulty_factor = 0 then none
  else some ((2^128 + (2^128 - 1) - (2^128 - 1) / difficulty_factor) % 2^128)

/-!  Small list helpers used throughout.  -/

theorem getD_set_ne (l : List Nat) (i j v : Nat) (h : i ≠ j) :
    (l.set i v).getD j 0 = l.getD j 0 := by
  rw [List.getD_eq_getD_get?, List.getD_eq_getD_get?]
  simp only [List.get?_eq_getElem?]
  rw [List.getElem?_set_ne h]

theorem getD_set_self (l : List Nat) (i v : Nat) (h : i < l.length) :
    (l.set i v).getD i 0 = v := by
  rw [List.getD_eq_getD_get?]
  simp only [List.get?_eq_getElem?]
  rw [List.getElem?_set_eq_of_lt _ h]
  rfl

def decDigitsGo : Nat → Nat → List Nat
  | 0, n => [n]
  | fuel + 1, n => if n < 10 then [n] else n % 10 :: decDigitsGo fuel (n / 10)

/-- Little-endian list of decimal digits of `n` (least significant first,
`[0]` for zero); the fuel `n` always suffices. -/
def decDigits (n : Nat) : List Nat := decDigitsGo n n

/-- The ASCII decimal representation of `n` (most significant digit first,
no leading zeros; `"0"` for zero). -/
def asciiDec (n : Nat) : List Nat := ((decDigits n).reverse).map (fun d => d + 48)

theorem decDigitsGo_fuel_irrel (f1 : Nat) :
    ∀ f2 n, n < 10 ^ (f1 + 1) → n < 10 ^ (f2 + 1) → decDigitsGo f1 n = decDigitsGo f2 n := by
  induction f1 with
  | zero =>
    intro f2 n h1 _
    have hn : n < 10 := by simpa using h1
    cases f2 with
    | zero => rfl
    | succ m => simp [decDigitsGo, hn]
  | succ g1 ih =>
    intro f2 n h1 h2
    by_cases hn : n < 10
    · cases f2 with
      | zero => simp [decDigitsGo, hn]
      | succ m => simp [decDigitsGo, hn]
    · cases f2 with
      | zero =>
        exact absurd (by simpa using h2) hn
      | succ g2 =>
        simp only [decDigitsGo, if_neg hn]
        have hq1 : n / 10 < 10 ^ (g1 + 1) := by
          rw [Nat.div_lt_iff_lt_mul (by omega)]
          calc n < 10 ^ (g1 + 1 + 1) := h1
          _ = 10 ^ (g1 + 1) * 10 := by ring
        have hq2 : n / 10 < 10 ^ (g2 + 1) := by
          rw [Nat.div_lt_iff_lt_mul (by omega)]
          calc n < 10 ^ (g2 + 1 + 1) := h2
          _ = 10 ^ (g2 + 1) * 10 := by ring
        rw [ih g2 (n / 10) hq1 hq2]

theorem lt_ten_pow_succ (n : Nat) : n < 10 ^ (n + 1) := by
  calc n < 10 ^ n := Nat.lt_pow_self (by omega) n
  _ ≤ 10 ^ (n + 1) := Nat.pow_le_pow_right (by omega) (by omega)

theorem decDigits_small (n : Nat) (h : n < 10) : decDigits n = [n] := by
  unfold decDigits
  cases n with
  | zero => rfl
  | succ m => simp [decDigitsGo, h]

theorem decDigits_step (n : Nat) (h : 10 ≤ n) :
    decDigits n = n % 10 :: decDigits (n / 10) := by
  unfold decDigits
  have hn : n = (n - 1) + 1 := by omega
  rw [hn]
  simp only [decDigitsGo, if_neg (by omega : ¬ (n - 1 + 1 < 10))]
  rw [← hn]
  congr 1
  exact decDigitsGo_fuel_irrel (n - 1) (n / 10) (n / 10)
    (by have := lt_ten_pow_succ n; have : (10:Nat) ^ (n - 1 + 1) = 10 ^ n := by congr 1; omega
        rw [this]; have := Nat.lt_pow_self (show 1 < 10 by omega) n; omega)
    (lt_ten_pow_succ (n / 10))

theorem fillerAddend_succ_eq (k : Nat) : fillerAddend (k + 1) = 10 ^ k + fillerAddend k := by
  induction k with
  | zero => rfl
  | succ m ih =>
    show fillerAddend (m + 1) * 10 + 1 = 10 ^ (m + 1) + (fillerAddend m * 10 + 1)
    rw [ih]
    ring

/-- The `e` zero-padded decimal digits of `k`, most significant first. -/
def digitsBE : Nat → Nat → List Nat
  | 0, _ => []
  | e + 1, k => digitsBE e (k / 10) ++ [k % 10]

theorem digitsBE_length (e : Nat) : ∀ k, (digitsBE e k).length = e := by
  induction e with
  | zero => intro k; rfl
  | succ m ih => intro k; simp [digitsBE, ih]

theorem digitsBE_getD0 (e : Nat) : ∀ K, (digitsBE (e + 1) K).getD 0 0 = K / 10 ^ e % 10 := by
  induction e with
  | zero => intro K; simp [digitsBE]
  | succ m ih =>
    intro K
    show (digitsBE (m + 1) (K / 10) ++ [K % 10]).getD 0 0 = _
    rw [List.getD_append _ _ _ _ (by rw [digitsBE_length]; omega)]
    rw [ih (K / 10), Nat.div_div_eq_div_mul]
    congr 2
    ring

theorem digitsBE_add_split (n : Nat) : ∀ (m K : Nat),
    digitsBE (m + n) K = digitsBE m (K / 10 ^ n) ++ digitsBE n (K % 10 ^ n) := by
  induction n with
  | zero => intro m K; simp [digitsBE]
  | succ e ih =>
    intro m K
    show digitsBE (m + e + 1) K = _
    show digitsBE (m + e) (K / 10) ++ [K % 10] = _
    rw [ih m (K / 10)]
    have h1 : K / 10 / 10 ^ e = K / 10 ^ (e + 1) := by
      rw [Nat.div_div_eq_div_mul]
      congr 1
      ring
    have h2 : K / 10 % 10 ^ e = K % 10 ^ (e + 1) / 10 := by
      rw [pow_succ']
      rw [Nat.mod_mul_right_div_self]
    have h3 : K % 10 = K % 10 ^ (e + 1) % 10 := by
      rw [Nat.mod_mod_of_dvd K (dvd_pow_self 10 (by omega))]
    rw [h1, h2, h3]
    show _ = digitsBE m (K / 10 ^ (e + 1)) ++ (digitsBE e (K % 10 ^ (e + 1) / 10) ++ [K % 10 ^ (e + 1) % 10])
    rw [List.append_assoc]

theorem decDigits_reverse_eq_digitsBE (e : Nat) : ∀ n, 10 ^ e ≤ n → n < 10 ^ (e + 1) →
    (decDigits n).reverse = digitsBE (e + 1) n := by
  induction e with
  | zero =>
    intro n h1 h2
    rw [decDigits_small n (by simpa using h2)]
    simp [digitsBE]
    omega
  | succ m ih =>
    intro n h1 h2
    have h10 : 10 ≤ n := by
      calc (10:Nat) = 10 ^ 1 := by norm_num
      _ ≤ 10 ^ (m + 1) := Nat.pow_le_pow_right (by omega) (by omega)
      _ ≤ n := h1
    rw [decDigits_step n h10]
    simp only [List.reverse_cons]
    rw [ih (n / 10) (by rw [Nat.le_div_iff_mul_le (by omega)]; calc 10 ^ m * 10 = 10 ^ (m+1) := by ring
                        _ ≤ n := h1)
      (by rw [Nat.div_lt_iff_lt_mul (by omega)]; calc n < 10 ^ (m + 2) := h2
          _ = 10 ^ (m + 1) * 10 := by ring)]
    rfl

theorem asciiDec_of_bounds (e n : Nat) (h1 : 10 ^ e ≤ n) (h2 : n < 10 ^ (e + 1)) :
    asciiDec n = (digitsBE (e + 1) n).map (fun d => d + 48) := by
  unfold asciiDec
  rw [decDigits_reverse_eq_digitsBE e n h1 h2]

theorem decDigits_reverse_mul_pow_add (e : Nat) : ∀ a b, 1 ≤ a → b < 10 ^ e →
    (decDigits (a * 10 ^ e + b)).reverse = (decDigits a).reverse ++ digitsBE e b := by
  induction e with
  | zero =>
    intro a b _ hb
    have hb0 : b = 0 := by omega
    subst hb0
    simp [digitsBE]
  | succ m ih =>
    intro a b ha hb
    have hX : 10 ≤ a * 10 ^ (m + 1) + b := by
      have : (10:Nat) ≤ 10 ^ (m + 1) := by
        calc (10:Nat) = 10 ^ 1 := by norm_num
        _ ≤ 10 ^ (m + 1) := Nat.pow_le_pow_right (by omega) (by omega)
      nlinarith
    rw [decDigits_step _ hX]
    have hmod : (a * 10 ^ (m + 1) + b) % 10 = b % 10 := by
      have : a * 10 ^ (m + 1) = a * 10 ^ m * 10 := by ring
      rw [this]
      omega
    have hdiv : (a * 10 ^ (m + 1) + b) / 10 = a * 10 ^ m + b / 10 := by
      have : a * 10 ^ (m + 1) = a * 10 ^ m * 10 := by ring
      rw [this]
      omega
    simp only [List.reverse_cons, hmod, hdiv]
    rw [ih a (b / 10) ha (by rw [Nat.div_lt_iff_lt_mul (by omega)]; calc b < 10 ^ (m+1) := hb
        _ = 10 ^ m * 10 := by ring)]
    show _ = (decDigits a).reverse ++ (digitsBE m (b / 10) ++ [b % 10])
    rw [List.append_assoc]

theorem decDigits_fillerAddend (m : Nat) (h : 1 ≤ m) :
    decDigits (fillerAddend m) = List.replicate m 1 := by
  induction m with
  | zero => omega
  | succ j ih =>
    by_cases hj : j = 0
    · subst hj
      rfl
    · have hrep := ih (by omega)
      have hge : 10 ≤ fillerAddend (j + 1) := by
        have h10 : 1 ≤ fillerAddend j := by
          rcases j with _ | i
          · omega
          · rw [fillerAddend_succ_eq]
            have : (1:Nat) ≤ 10 ^ i := Nat.one_le_pow _ _ (by omega)
            omega
        show 10 ≤ fillerAddend j * 10 + 1
        omega
      rw [decDigits_step _ hge]
      show ((fillerAddend j * 10 + 1) % 10) :: decDigits ((fillerAddend j * 10 + 1) / 10) = _
      have hm : (fillerAddend j * 10 + 1) % 10 = 1 := by omega
      have hd : (fillerAddend j * 10 + 1) / 10 = fillerAddend j := by omega
      rw [hm, hd, hrep]
      rfl

theorem fillerAddend_ge_one (m : Nat) (h : 1 ≤ m) : 1 ≤ fillerAddend m := by
  rcases m with _ | j
  · omega
  · rw [fillerAddend_succ_eq]
    have : (1:Nat) ≤ 10 ^ j := Nat.one_le_pow _ _ (by omega)
    omega

/-!  Characterisation of the shared block-absorbing loop.  -/

theorem sha256run_cons (st : List Nat) (b : List Nat) (rest : List (List Nat)) :
    sha256run st (b :: rest) = sha256run (compress_block_reference st (bytesToWords b)) rest :=
  rfl

theorem chunk64_append_block (a b : List Nat) (ha : a.length = 64) :
    chunk64 (a ++ b) = a :: chunk64 b := by
  rw [chunk64_cons (a ++ b) (by intro h; apply_fun List.length at h; simp [ha] at h)]
  rw [List.take_left' ha, List.drop_left' ha]

theorem absorb_spec (n : Nat) : ∀ (pfx : List Nat), pfx.length = n → ∀ st c,
    absorb st c pfx =
      (sha256run st (chunk64 (pfx.take (pfx.length / 64 * 64))),
       c + pfx.length / 64, pfx.drop (pfx.length / 64 * 64)) := by
  induction n using Nat.strong_induction_on with
  | _ n ih =>
    intro pfx hlen st c
    by_cases h : 64 ≤ pfx.length
    · rw [absorb_step st c pfx h]
      have hdl : (pfx.drop 64).length = pfx.length - 64 := by simp
      rw [ih (pfx.length - 64) (by omega) (pfx.drop 64) hdl]
      simp only [hdl]
      have htk : pfx.take (pfx.length / 64 * 64) =
          pfx.take 64 ++ (pfx.drop 64).take ((pfx.length - 64) / 64 * 64) := by
        rw [← List.take_add]
        congr 1
        omega
      have htk64 : (pfx.take 64).length = 64 := by
        simp only [List.length_take]
        omega
      rw [htk, chunk64_append_block _ _ htk64, sha256run_cons]
      rw [List.drop_drop]
      have h1 : c + 1 + (pfx.length - 64) / 64 = c + pfx.length / 64 := by omega
      have h2 : 64 + (pfx.length - 64) / 64 * 64 = pfx.length / 64 * 64 := by omega
      rw [h1, h2]
    · rw [absorb_of_lt st c pfx (by omega)]
      have hq : pfx.length / 64 = 0 := Nat.div_eq_of_lt (by omega)
      simp [hq, chunk64_nil, sha256run]

/-!  Characterisation of the double-block filler loop.  -/

theorem fillerGo_ok (n : Nat) : ∀ (m : List Nat) (ptr a : Nat), ptr + n ≤ m.length →
    ∃ m', fillerGo n m ptr a = some (m', ptr + n, a * 10 ^ n + fillerAddend n) ∧
      m'.length = m.length ∧
      (∀ i, (i < ptr ∨ ptr + n ≤ i) → m'.getD i 0 = m.getD i 0) ∧
      (∀ i, ptr ≤ i → i < ptr + n → m'.getD i 0 = 49) := by
  induction n with
  | zero =>
    intro m ptr a _
    refine ⟨m, ?_, rfl, fun i _ => rfl, fun i h1 h2 => by omega⟩
    simp [fillerGo, fillerAddend]
  | succ k ih =>
    intro m ptr a h
    have hlt : ptr < m.length := by omega
    obtain ⟨m', he, hl, hsame, hones⟩ :=
      ih (m.set ptr 49) (ptr + 1) (a * 10 + 1) (by simp [List.length_set]; omega)
    refine ⟨m', ?_, by simpa [List.length_set] using hl, ?_, ?_⟩
    · show fillerGo (k + 1) m ptr a = _
      simp only [fillerGo, if_pos hlt]
      rw [he]
      have hv : (a * 10 + 1) * 10 ^ k + fillerAddend k =
          a * 10 ^ (k + 1) + fillerAddend (k + 1) := by
        rw [fillerAddend_succ_eq]
        ring
      rw [hv]
      have hp : ptr + 1 + k = ptr + (k + 1) := by omega
      rw [hp]
    · intro i hi
      have hne : ptr ≠ i := by omega
      rw [hsame i (by omega), getD_set_ne _ _ _ _ hne]
    · intro i h1 h2
      by_cases hip : i = ptr
      · subst hip
        rw [hsame i (by omega)]
        exact getD_set_self _ _ _ hlt
      · exact hones i (by omega) (by omega)

theorem fillerGo_fail (n : Nat) : ∀ (m : List Nat) (ptr a : Nat),
    ptr ≤ m.length → m.length < ptr + n → fillerGo n m ptr a = none := by
  induction n with
  | zero => intro m ptr a h1 h2; omega
  | succ k ih =>
    intro m ptr a h1 h2
    by_cases hlt : ptr < m.length
    · simp only [fillerGo, if_pos hlt]
      exact ih _ (ptr + 1) _ (by simp [List.length_set]; omega) (by simp [List.length_set]; omega)
    · simp only [fillerGo, if_neg hlt]

/-- The offset reached by the double-block conditioning: the tail length
advanced to the next position `≡ 6 (mod 8)` (where the loop
`while (ptr + 2) % 8 != 0` stops). -/
def condOff (t : Nat) : Nat := t + fillerSteps t

theorem getD_replicate_zero (n j : Nat) : (List.replicate n (0 : Nat)).getD j 0 = 0 := by
  by_cases h : j < n
  · rw [List.getD_eq_getElem _ _ (by simpa using h)]
    simp
  · rw [List.getD_eq_default _ _ (by simpa using h)]

theorem sNew_eq (pfx : List Nat) :
    SingleBlockSolver16Way.new pfx =
      SingleBlockSolver16Way.newTail
        (sha256run IV256 (chunk64 (pfx.take (pfx.length / 64 * 64))))
        (pfx.length / 64) (pfx.drop (pfx.length / 64 * 64)) := by
  show SingleBlockSolver16Way.newTail (absorb IV256 0 pfx).1 (absorb IV256 0 pfx).2.1
      (absorb IV256 0 pfx).2.2 = _
  rw [absorb_spec pfx.length pfx rfl IV256 0]
  simp

theorem dNew_eq (pfx : List Nat) :
    DoubleBlockSolver16Way.new pfx =
      DoubleBlockSolver16Way.newTail
        (sha256run IV256 (chunk64 (pfx.take (pfx.length / 64 * 64))))
        (pfx.length / 64) (pfx.drop (pfx.length / 64 * 64)) := by
  show DoubleBlockSolver16Way.newTail (absorb IV256 0 pfx).1 (absorb IV256 0 pfx).2.1
      (absorb IV256 0 pfx).2.2 = _
  rw [absorb_spec pfx.length pfx rfl IV256 0]
  simp

theorem dNewTail_spec (st0 : List Nat) (c0 : Nat) (tail : List Nat)
    (h64 : tail.length < 64) :
    ((DoubleBlockSolver16Way.newTail st0 c0 tail).isNone ↔ condOff tail.length ≠ 54) ∧
    ∀ s, DoubleBlockSolver16Way.newTail st0 c0 tail = some s →
      s.message.length = 64 ∧
      (∀ i, 54 ≤ i → i < 63 → s.message.getD i 0 = 0) ∧
      s.message.getD 63 0 = 128 := by
  have hsteps : fillerSteps tail.length < 8 := by
    unfold fillerSteps
    omega
  have hm0len : (tail ++ List.replicate (64 - tail.length) 0).length = 64 := by
    simp only [List.length_append, List.length_replicate]
    omega
  unfold DoubleBlockSolver16Way.newTail fillerLoop
  by_cases hbig : 64 < condOff tail.length
  · rw [fillerGo_fail (fillerSteps tail.length) _ tail.length 0 (by omega)
      (by unfold condOff at hbig; omega)]
    refine ⟨by simp; unfold condOff at hbig ⊢; omega, fun s hs => by simp at hs⟩
  · obtain ⟨m', he, hlen', hsame, _⟩ :=
      fillerGo_ok (fillerSteps tail.length) (tail ++ List.replicate (64 - tail.length) 0)
        tail.length 0 (by rw [hm0len]; unfold condOff at hbig; omega)
    rw [he]
    simp only [Option.some_bind]
    by_cases h54 : tail.length + fillerSteps tail.length = 54
    · rw [if_pos (show tail.length + fillerSteps tail.length =
        DoubleBlockSolver16Way.DIGIT_IDX from h54)]
      have hml : m'.length = 64 := by rw [hlen', hm0len]
      refine ⟨by simp [condOff, h54], fun s hs => ?_⟩
      have hs' := Option.some.inj hs
      subst hs'
      refine ⟨by simp [List.length_set, hml], fun i h1 h2 => ?_, ?_⟩
      · rw [getD_set_ne _ _ _ _ (by omega)]
        rw [hsame i (Or.inr (by omega))]
        rw [List.getD_append_right _ _ _ _ (by omega)]
        exact getD_replicate_zero _ _
      · exact getD_set_self _ _ _ (by omega)
    · rw [if_neg (show ¬ tail.length + fillerSteps tail.length =
        DoubleBlockSolver16Way.DIGIT_IDX from h54)]
      refine ⟨by simp [condOff, h54], fun s hs => by simp at hs⟩

/-- C5: `DoubleBlockSolver16Way::new` returns `None` exactly when the
conditioned tail (the post-block remainder advanced through the ASCII `'1'`
filler loop) does not reach offset 54; when it returns `Some`, the 9-digit
window, bytes 54..62 of the final data block, is all zeros in the template
and byte 63 holds `0x80`. -/
theorem C5_doubleblock_construction (pfx : List Nat) :
    ((DoubleBlockSolver16Way.new pfx).isNone ↔ condOff (pfx.length % 64) ≠ 54) ∧
    ∀ s, DoubleBlockSolver16Way.new pfx = some s →
      s.message.length = 64 ∧
      (∀ i, 54 ≤ i → i < 63 → s.message.getD i 0 = 0) ∧
      s.message.getD 63 0 = 128 := by
  rw [dNew_eq]
  have htlen : (pfx.drop (pfx.length / 64 * 64)).length = pfx.length % 64 := by
    simp only [List.length_drop]
    omega
  have hs := dNewTail_spec (sha256run IV256 (chunk64 (pfx.take (pfx.length / 64 * 64))))
    (pfx.length / 64) (pfx.drop (pfx.length / 64 * 64)) (by rw [htlen]; omega)
  rw [htlen] at hs
  exact hs

/-- The test prefix of 54 `'a'` bytes and the double-block solver built
from it (tail at offset 54, no filler, no nonce addend). -/
def d54Pfx : List Nat := List.replicate 54 97

/-- The concrete double-block solver built from `d54Pfx`. -/
def d54Solver : DoubleBlockSolver16Way :=
  match DoubleBlockSolver16Way.new d54Pfx with
  | some s => s
  | none => { prefix_state := [], message := [], terminal_message_schedule := [],
              nonce_addend := 0 }

/-- Witness for C5 at the 54-byte prefix: window byte 60 is zero and byte
63 is `0x80`. -/
theorem C5_doubleblock_construction_witness :
    d54Solver.message.getD 60 0 = 0 ∧ d54Solver.message.getD 63 0 = 128 :=
  ⟨((C5_doubleblock_construction d54Pfx).2 d54Solver (by decide)).2.1 60 (by decide)
      (by decide),
   ((C5_doubleblock_construction d54Pfx).2 d54Solver (by decide)).2.2⟩

/-- C6: in `SingleBlockSolver16Way::new`, when the remaining tail length
`L` satisfies `L + 9 + 9 > 64`, an extra block is absorbed whose last
`64 - L` bytes are ASCII `'1'` (compressed into `prefix_state` below),
`nonce_addend` becomes `10^9` times the decimal value of those filler
digits, and `new` returns `None` exactly when that multiplication
overflows `u64` (otherwise construction succeeds). -/
theorem C6_filler_overflow (pfx : List Nat) (hbig : 64 < pfx.length % 64 + 9 + 9) :
    (SingleBlockSolver16Way.new pfx = none ↔
      2^64 ≤ fillerAddend (64 - pfx.length % 64) * 1000000000) ∧
    ∀ s, SingleBlockSolver16Way.new pfx = some s →
      s.nonce_addend = fillerAddend (64 - pfx.length % 64) * 1000000000 ∧
      s.digit_index = 0 ∧
      s.prefix_state = compress_block_reference
        (sha256run IV256 (chunk64 (pfx.take (pfx.length / 64 * 64))))
        (bytesToWords (pfx.drop (pfx.length / 64 * 64) ++
          List.replicate (64 - pfx.length % 64) 49)) := by
  rw [sNew_eq]
  have htlen : (pfx.drop (pfx.length / 64 * 64)).length = pfx.length % 64 := by
    simp only [List.length_drop]
    omega
  unfold SingleBlockSolver16Way.newTail
  rw [htlen]
  rw [if_pos hbig]
  by_cases hov : fillerAddend (64 - pfx.length % 64) * 1000000000 < 2^64
  · rw [if_pos hov]
    refine ⟨⟨fun h => by simp at h, fun h => by omega⟩, fun s hs => ?_⟩
    have hs' := Option.some.inj hs
    subst hs'
    exact ⟨rfl, rfl, rfl⟩
  · rw [if_neg hov]
    exact ⟨⟨fun _ => by omega, fun _ => rfl⟩, fun s hs => by simp at hs⟩

/-- The prefix of 53 `'a'` bytes (filler of 11 ones, no overflow) and the
solver built from it. -/
def s53Pfx : List Nat := List.replicate 53 97

/-- The concrete single-block solver built from `s53Pfx`. -/
def s53Solver : SingleBlockSolver16Way :=
  match SingleBlockSolver16Way.new s53Pfx with
  | some s => s
  | none => { prefix_state := [], message := [], digit_index := 0, nonce_addend := 0 }

/-- Witness for C6 at the 53-byte prefix, whose filler is 11 ones. -/
theorem C6_filler_overflow_witness :
    s53Solver.nonce_addend = fillerAddend (64 - s53Pfx.length % 64) * 1000000000 ∧
      s53Solver.digit_index = 0 ∧
      s53Solver.prefix_state = compress_block_reference
        (sha256run IV256 (chunk64 (s53Pfx.take (s53Pfx.length / 64 * 64))))
        (bytesToWords (s53Pfx.drop (s53Pfx.length / 64 * 64) ++
          List.replicate (64 - s53Pfx.length % 64) 49)) :=
  (C6_filler_overflow s53Pfx (by decide)).2 s53Solver (by decide)

/-!  Generic properties of the first-hit search.  -/

theorem findFirst_eq_none {α : Type} (f : Nat → Option α) (fuel : Nat) :
    ∀ i, findFirst f fuel i = none ↔ ∀ j, i ≤ j → j < i + fuel → f j = none := by
  induction fuel with
  | zero => intro i; simp [findFirst]; intro j h1 h2; omega
  | succ m ih =>
    intro i
    simp only [findFirst]
    cases hf : f i with
    | some a =>
      simp only []
      constructor
      · intro h; exact absurd h (by simp)
      · intro h
        have := h i (le_refl i) (by omega)
        rw [hf] at this; exact absurd this (by simp)
    | none =>
      simp only []
      rw [ih (i + 1)]
      constructor
      · intro h j hj1 hj2
        rcases Nat.eq_or_lt_of_le hj1 with rfl | hlt
        · exact hf
        · exact h j hlt (by omega)
      · intro h j hj1 hj2
        exact h j (by omega) (by omega)

theorem findFirst_eq_some {α : Type} (f : Nat → Option α) (fuel : Nat) :
    ∀ i j a, findFirst f fuel i = some (j, a) →
      i ≤ j ∧ j < i + fuel ∧ f j = some a ∧ ∀ t, i ≤ t → t < j → f t = none := by
  induction fuel with
  | zero => intro i j a h; simp [findFirst] at h
  | succ m ih =>
    intro i j a h
    simp only [findFirst] at h
    cases hf : f i with
    | some b =>
      rw [hf] at h
      simp only [Option.some.injEq, Prod.mk.injEq] at h
      obtain ⟨rfl, rfl⟩ := h
      exact ⟨le_refl i, by omega, hf, fun t h1 h2 => absurd (lt_of_le_of_lt h1 h2) (lt_irrefl i)⟩
    | none =>
      rw [hf] at h
      obtain ⟨h1, h2, h3, h4⟩ := ih (i + 1) j a h
      refine ⟨by omega, by omega, h3, fun t ht1 ht2 => ?_⟩
      rcases Nat.eq_or_lt_of_le ht1 with rfl | hlt
      · exact hf
      · exact h4 t hlt ht2

/-!  Characterisation of the single-block search loops.  -/

theorem firstLane_eq_none_iff (s : SingleBlockSolver16Way) (t0 p k : Nat) :
    firstLane s t0 p k = none ↔ ∀ lane, lane < 16 → laneAccept s t0 p k lane = false := by
  unfold firstLane
  rw [Option.map_eq_none']
  rw [findFirst_eq_none]
  constructor
  · intro h lane hlt
    have := h lane (Nat.zero_le _) (by omega)
    by_cases hacc : laneAccept s t0 p k lane
    · rw [if_pos hacc] at this; exact absurd this (by simp)
    · simpa using hacc
  · intro h j _ hj
    rw [h j (by omega)]
    simp

theorem firstLane_eq_some_spec (s : SingleBlockSolver16Way) (t0 p k lane : Nat)
    (h : firstLane s t0 p k = some lane) :
    lane < 16 ∧ laneAccept s t0 p k lane = true ∧
      ∀ l, l < lane → laneAccept s t0 p k l = false := by
  unfold firstLane at h
  rw [Option.map_eq_some'] at h
  obtain ⟨⟨j, a⟩, hfind, hj⟩ := h
  simp only [] at hj
  subst hj
  obtain ⟨_, hlt, hf, hbefore⟩ := findFirst_eq_some _ _ _ _ _ hfind
  refine ⟨by omega, ?_, fun l hl => ?_⟩
  · by_cases hacc : laneAccept s t0 p k j
    · exact hacc
    · rw [if_neg hacc] at hf; exact absurd hf (by simp)
  · have := hbefore l (Nat.zero_le _) hl
    by_cases hacc : laneAccept s t0 p k l
    · rw [if_pos hacc] at this; exact absurd this (by simp)
    · simpa using hacc

/-- Lexicographic order on `(p, inner_key, lane)`: the total search order
of a single `solve` call. -/
def tripleEarlier (x y : Nat × Nat × Nat) : Prop :=
  x.1 < y.1 ∨ (x.1 = y.1 ∧ (x.2.1 < y.2.1 ∨ (x.2.1 = y.2.1 ∧ x.2.2 < y.2.2)))

/-- The candidate `(p, inner_key, lane)` is the first triple in the total
search order whose digest satisfies the acceptance predicate. -/
def isFirstHit (s : SingleBlockSolver16Way) (t0 p k lane : Nat) : Prop :=
  laneAccept s t0 p k lane = true ∧
    ∀ p' k' lane', p' < 5 → k' < 10000000 → lane' < 16 →
      tripleEarlier (p', k', lane') (p, k, lane) → laneAccept s t0 p' k' lane' = false

theorem firstHit_some_spec (s : SingleBlockSolver16Way) (t0 p k lane : Nat)
    (h : firstHit s t0 = some (p, k, lane)) :
    p < 5 ∧ k < 10000000 ∧ lane < 16 ∧ isFirstHit s t0 p k lane := by
  unfold firstHit at h
  rw [Option.map_eq_some'] at h
  obtain ⟨⟨p', x⟩, hfind, heq⟩ := h
  obtain ⟨k', lane'⟩ := x
  simp only [Prod.mk.injEq] at heq
  obtain ⟨rfl, rfl, rfl⟩ := heq
  obtain ⟨_, hp5, hinner, houter⟩ := findFirst_eq_some _ _ _ _ _ hfind
  obtain ⟨_, hk7, hlane, hkbefore⟩ := findFirst_eq_some _ _ _ _ _ hinner
  obtain ⟨hl16, hacc, hlbefore⟩ := firstLane_eq_some_spec _ _ _ _ _ hlane
  refine ⟨by omega, by omega, hl16, hacc, ?_⟩
  intro q kq lq hq5 hkq7 hlq16 hearly
  rcases hearly with hq | ⟨rfl, hk | ⟨rfl, hl⟩⟩
  · have houterq := houter q (Nat.zero_le _) hq
    rw [findFirst_eq_none] at houterq
    have := houterq kq (Nat.zero_le _) (by omega)
    rw [firstLane_eq_none_iff] at *
    · exact this lq hlq16
  · have := hkbefore kq (Nat.zero_le _) hk
    rw [firstLane_eq_none_iff] at this
    exact this lq hlq16
  · exact hlbefore lq hl

theorem solve_eq_some_spec (s : SingleBlockSolver16Way) (target : List Nat)
    (n d : Nat) (h : s.solve target = some (n, d)) :
    ∃ p k lane, firstHit s (target.getD 0 0) = some (p, k, lane) ∧
      n = (10 + 16 * p + lane) * 10^7 + k + s.nonce_addend ∧
      d = top128 (compress_block_reference s.prefix_state
        (bytesToWords (stampLaneSet (stampInner s.message s.digit_index k)
          s.digit_index (10 + 16 * p + lane)))) := by
  unfold SingleBlockSolver16Way.solve at h
  cases hh : firstHit s (target.getD 0 0) with
  | none => rw [hh] at h; exact absurd h (by simp)
  | some x =>
    obtain ⟨p, k, lane⟩ := x
    rw [hh] at h
    simp only [Option.some.injEq, Prod.mk.injEq] at h
    exact ⟨p, k, lane, rfl, h.1.symm, h.2.symm⟩

/-- C2: whenever `SingleBlockSolver16Way::solve` returns `Some`, the nonce
is `(10 + 16·p + lane) · 10^7 + inner_key + nonce_addend` for the first
triple `(p, inner_key, lane)` in the total search order — `p` ascending
over `0..5`, `inner_key` ascending over `0..10_000_000`, ties broken by the
lowest-indexed winning lane — that satisfies the acceptance predicate. -/
theorem C2_search_order (s : SingleBlockSolver16Way) (target : List Nat) (n d : Nat)
    (h : s.solve target = some (n, d)) :
    ∃ p k lane, p < 5 ∧ k < 10000000 ∧ lane < 16 ∧
      isFirstHit s (target.getD 0 0) p k lane ∧
      n = (10 + 16 * p + lane) * 10^7 + k + s.nonce_addend := by
  obtain ⟨p, k, lane, hfh, hn, _⟩ := solve_eq_some_spec s target n d h
  obtain ⟨hp, hk, hl, hfirst⟩ := firstHit_some_spec s _ p k lane hfh
  exact ⟨p, k, lane, hp, hk, hl, hfirst, hn⟩

/-- The solver built from the empty prefix, used as the concrete instance
for the witnesses. -/
def sampleSolver : SingleBlockSolver16Way :=
  match SingleBlockSolver16Way.new [] with
  | some s => s
  | none => { prefix_state := [], message := [], digit_index := 0, nonce_addend := 0 }

/-- Witness for C2: on the empty prefix with a zero target the solver's
first hit is `(p, k, lane) = (0, 0, 0)`, nonce `10^8`. -/
theorem C2_search_order_witness :
    ∃ p k lane, p < 5 ∧ k < 10000000 ∧ lane < 16 ∧
      isFirstHit sampleSolver 0 p k lane ∧
      100000000 = (10 + 16 * p + lane) * 10^7 + k + sampleSolver.nonce_addend :=
  C2_search_order sampleSolver [0, 0, 0, 0] 100000000
    305201883868191114992932698686451729216 (by decide)

/-- C3: `SingleBlockSolver16Way::solve` returns `None` if and only if none
of the `5 · 10^7 · 16` enumerated candidates has a digest whose top 32-bit
word (the A word after the single feedback broadcast add) strictly exceeds
the target's top word.  Only `target[0]` appears on the right: the lower 96
bits of the target are never consulted. -/
theorem C3_exhaustion_iff (s : SingleBlockSolver16Way) (t0 t1 t2 t3 : Nat) :
    s.solve [t0, t1, t2, t3] = none ↔
      ∀ p k lane, p < 5 → k < 10000000 → lane < 16 →
        laneAccept s t0 p k lane = false := by
  have hget : ([t0, t1, t2, t3].getD 0 0) = t0 := rfl
  constructor
  · intro h p k lane hp hk hl
    unfold SingleBlockSolver16Way.solve at h
    cases hh : firstHit s t0 with
    | some x =>
      obtain ⟨p', k', lane'⟩ := x
      rw [hget, hh] at h
      exact absurd h (by simp)
    | none =>
      unfold firstHit at hh
      rw [Option.map_eq_none'] at hh
      rw [findFirst_eq_none] at hh
      have houter := hh p (Nat.zero_le _) (by omega)
      rw [findFirst_eq_none] at houter
      have hinner := houter k (Nat.zero_le _) (by omega)
      rw [firstLane_eq_none_iff] at hinner
      exact hinner lane hl
  · intro h
    unfold SingleBlockSolver16Way.solve
    rw [hget]
    cases hh : firstHit s t0 with
    | none => simp
    | some x =>
      obtain ⟨p, k, lane⟩ := x
      obtain ⟨hp, hk, hl, hacc, _⟩ := firstHit_some_spec s t0 p k lane hh
      rw [h p k lane hp hk hl] at hacc
      exact absurd hacc (by simp)

/-!  Claim C1: the proof-correctness invariant.  The digest returned by
either solver always equals the top 128 bits of the true hash of
`prefix ++ ascii(nonce)` (both solvers recompute it from the template with
the scalar compression), and for the single-block solver the acceptance
test guarantees `digest > target`.  For the double-block solver, however,
the hot loop hashes a DIFFERENT first block than the one the digest is
recomputed from: block word 13 is loaded as the bare lane-ID mask
(src/lib.rs:538, 546-552, commented `13 is always zero for a valid
construction`), dropping the template's bytes 52 and 53, which hold tail or
filler bytes and are nonzero for essentially every valid construction.  So
acceptance is decided on the wrong message and the returned digest need not
exceed the target.  The instance below exhibits this. -/

/-- A 54-byte prefix (`'d'` repeated); the double-block solver constructs
at offset 54 with no filler. -/
def dBugPfx : List Nat := List.replicate 54 100

/-- A target whose top word is one less than the corrupted acceptance word
of the very first candidate `(p, k, lane) = (0, 0, 0)`, and whose low
words are all `u32::MAX`. -/
def dBugTarget : List Nat := [3365166522, 4294967295, 4294967295, 4294967295]

/-- The concrete double-block solver built from `dBugPfx`. -/
def dBugSolver : DoubleBlockSolver16Way :=
  match DoubleBlockSolver16Way.new dBugPfx with
  | some s => s
  | none => { prefix_state := [], message := [], terminal_message_schedule := [],
              nonce_addend := 0 }

/-- C1: the claim fails on the code (code bug in
`DoubleBlockSolver16Way::solve`).  On the prefix `dBugPfx` and target
`dBugTarget`, `solve` returns `Some((100000000, digest))` where `digest` is
indeed the big-endian top 128 bits of
`SHA-256(prefix ∥ ascii(nonce))` — but `digest` does NOT strictly exceed
the 128-bit target: the acceptance comparison was made on a block whose
word 13 lost the template bytes 52-53. -/
theorem C1_doubleblock_bug :
    DoubleBlockSolver16Way.new dBugPfx = some dBugSolver ∧
      dBugSolver.solve dBugTarget =
        some (100000000, 38283261089261193484873285052817031212) ∧
      top128 (sha256full (dBugPfx ++ asciiDec 100000000)) =
        38283261089261193484873285052817031212 ∧
      ¬ target128 dBugTarget < 38283261089261193484873285052817031212 :=
  ⟨by decide, by decide, by decide, by decide⟩

/-!  Claim C9: nonce decimality.  -/

theorem sNewTail_some_spec (st0 : List Nat) (c0 : Nat) (tail : List Nat)
    (s : SingleBlockSolver16Way)
    (h : SingleBlockSolver16Way.newTail st0 c0 tail = some s) :
    (64 < tail.length + 9 + 9 ∧
      fillerAddend (64 - tail.length) * 1000000000 < 2^64 ∧
      s = { prefix_state := compress_block_reference st0
              (bytesToWords (tail ++ List.replicate (64 - tail.length) 49)),
            message := mkTemplate [] (c0 + 1), digit_index := 0,
            nonce_addend := fillerAddend (64 - tail.length) * 1000000000 }) ∨
    (tail.length + 9 + 9 ≤ 64 ∧
      s = { prefix_state := st0, message := mkTemplate tail c0,
            digit_index := tail.length, nonce_addend := 0 }) := by
  unfold SingleBlockSolver16Way.newTail at h
  by_cases hbig : 64 < tail.length + 9 + 9
  · rw [if_pos hbig] at h
    by_cases hov : fillerAddend (64 - tail.length) * 1000000000 < 2^64
    · rw [if_pos hov] at h
      exact Or.inl ⟨hbig, hov, (Option.some.inj h).symm⟩
    · rw [if_neg hov] at h
      exact absurd h (by simp)
  · rw [if_neg hbig] at h
    exact Or.inr ⟨by omega, (Option.some.inj h).symm⟩

theorem map_add48_getD0 (l : List Nat) (h : l ≠ []) :
    (l.map (fun d => d + 48)).getD 0 0 = l.getD 0 0 + 48 := by
  cases l with
  | nil => exact absurd rfl h
  | cons x t => rfl

/-- C9: whenever the single-block solver returns `Some((nonce, _))`, the
ASCII decimal representation of the nonce has no leading zero: without a
filler block the nonce lies in `[10^8, 9·10^8)` (lane-ID prefix 10..=89,
leading digit 1..=8), and with a filler block the leading digit is the
filler's `'1'`, with `nonce ≥ nonce_addend ≥ 10^9`. -/
theorem C9_nonce_decimality (pfx : List Nat) (s : SingleBlockSolver16Way)
    (hnew : SingleBlockSolver16Way.new pfx = some s) (target : List Nat) (n d : Nat)
    (hsolve : s.solve target = some (n, d)) :
    (asciiDec n).getD 0 0 ≠ 48 ∧
    (s.nonce_addend = 0 → 100000000 ≤ n ∧ n < 900000000 ∧
      (asciiDec n).getD 0 0 = n / 100000000 + 48 ∧
      1 ≤ n / 100000000 ∧ n / 100000000 ≤ 8) ∧
    (s.nonce_addend ≠ 0 → (asciiDec n).getD 0 0 = 49 ∧
      1000000000 ≤ s.nonce_addend ∧ s.nonce_addend ≤ n) := by
  obtain ⟨p, k, lane, hfh, hn, _⟩ := solve_eq_some_spec s target n d hsolve
  obtain ⟨hp, hk, hl, _⟩ := firstHit_some_spec s _ p k lane hfh
  have h7 : (10:Nat)^7 = 10000000 := by norm_num
  rw [h7] at hn
  have hn9lo : 100000000 ≤ (10 + 16 * p + lane) * 10000000 + k := by nlinarith
  have hn9hi : (10 + 16 * p + lane) * 10000000 + k < 900000000 := by nlinarith
  rw [sNew_eq] at hnew
  have htlen : (pfx.drop (pfx.length / 64 * 64)).length = pfx.length % 64 := by
    simp only [List.length_drop]
    omega
  rcases sNewTail_some_spec _ _ _ s hnew with ⟨hbig, hov, hs⟩ | ⟨hsmall, hs⟩
  · -- filler branch: nonce_addend = fillerAddend m * 10^9 with m ≥ 1
    set m := 64 - (pfx.drop (pfx.length / 64 * 64)).length with hm
    have hm1 : 1 ≤ m := by rw [hm, htlen]; omega
    have haddend : s.nonce_addend = fillerAddend m * 1000000000 := by rw [hs]
    have hA1 : 1 ≤ fillerAddend m := fillerAddend_ge_one m hm1
    have hdec : (decDigits n).reverse =
        (decDigits (fillerAddend m)).reverse ++
          digitsBE 9 ((10 + 16 * p + lane) * 10000000 + k) := by
      have h9 : (10:Nat)^9 = 1000000000 := by norm_num
      have hneq : n = fillerAddend m * 10^9 + ((10 + 16 * p + lane) * 10000000 + k) := by
        rw [h9, hn, haddend]
        ring
      rw [hneq]
      exact decDigits_reverse_mul_pow_add 9 (fillerAddend m) _ hA1 (by rw [h9]; omega)
    have hrep : decDigits (fillerAddend m) = List.replicate m 1 :=
      decDigits_fillerAddend m hm1
    have hhead : (asciiDec n).getD 0 0 = 49 := by
      unfold asciiDec
      rw [hdec, hrep, List.reverse_replicate, List.map_append]
      rw [List.getD_append _ _ _ _ (by simp; omega)]
      rcases m with _ | j
      · omega
      · rfl
    refine ⟨by omega, fun hz => absurd hz (by rw [haddend]; positivity), fun _ => ?_⟩
    refine ⟨hhead, by rw [haddend]; nlinarith, by omega⟩
  · -- no-filler branch: nonce_addend = 0, n in [10^8, 9*10^8)
    have haddend : s.nonce_addend = 0 := by rw [hs]
    rw [haddend, Nat.add_zero] at hn
    have hbounds : 100000000 ≤ n ∧ n < 900000000 := by omega
    have hdig : asciiDec n = (digitsBE 9 n).map (fun d => d + 48) := by
      have := asciiDec_of_bounds 8 n (by norm_num; omega) (by norm_num; omega)
      simpa using this
    have hhead : (asciiDec n).getD 0 0 = n / 100000000 + 48 := by
      rw [hdig]
      rw [map_add48_getD0 _ (by
        intro hcon
        apply_fun List.length at hcon
        rw [digitsBE_length] at hcon
        simp at hcon)]
      have := digitsBE_getD0 8 n
      have h8 : (10:Nat)^8 = 100000000 := by norm_num
      rw [h8] at this
      rw [show digitsBE 9 n = digitsBE (8+1) n from rfl, this]
      have : n / 100000000 < 10 := by omega
      omega
    have hd1 : 1 ≤ n / 100000000 := by omega
    have hd8 : n / 100000000 ≤ 8 := by omega
    refine ⟨by omega, fun _ => ⟨hbounds.1, hbounds.2, hhead, hd1, hd8⟩,
      fun hnz => absurd haddend hnz⟩

/-- Witness for C9 on the empty prefix: the first returned nonce is
`10^8`, whose leading ASCII digit is `'1'`, not `'0'`. -/
theorem C9_nonce_decimality_witness : (asciiDec 100000000).getD 0 0 ≠ 48 :=
  (C9_nonce_decimality [] sampleSolver (by decide) [0, 0, 0, 0] 100000000
    305201883868191114992932698686451729216 (by decide)).1

/-!  Characterisation of the stamped single-block message.  -/

theorem lor_zero_left (n : Nat) : Nat.lor 0 n = n := by simp [Nat.lor]

theorem set_last_eq (l : List Nat) : ∀ (i v : Nat), l.length = i + 1 →
    l.set i v = l.take i ++ [v] := by
  induction l with
  | nil => intro i v h; simp at h
  | cons x t ih =>
    intro i v h
    cases i with
    | zero =>
      have : t = [] := by
        have := List.length_eq_zero.mp (by simpa using h)
        exact this
      subst this
      rfl
    | succ j =>
      show x :: t.set j v = x :: (t.take j ++ [v])
      rw [ih j v (by simpa using h)]

theorem stampGo_spec (i : Nat) : ∀ (di : Nat) (a mid b : List Nat) (key : Nat),
    mid.length = i → a.length = di + 2 →
    stampGo di i (a ++ (mid ++ b)) key =
      a ++ ((digitsBE i key).map (fun x => x + 48) ++ b) := by
  induction i with
  | zero =>
    intro di a mid b key hmid ha
    have : mid = [] := List.length_eq_zero.mp hmid
    subst this
    rfl
  | succ j ih =>
    intro di a mid b key hmid ha
    show stampGo di j ((a ++ (mid ++ b)).set (di + 2 + j) (key % 10 + 48)) (key / 10) = _
    have hset : (a ++ (mid ++ b)).set (di + 2 + j) (key % 10 + 48) =
        a ++ (mid.take j ++ ((key % 10 + 48) :: b)) := by
      rw [show di + 2 + j = a.length + j by omega]
      rw [List.set_append_right _ _ (by omega)]
      rw [show a.length + j - a.length = j by omega]
      rw [List.set_append_left _ _ (by omega)]
      rw [set_last_eq mid j _ hmid]
      rw [List.append_assoc]
      rfl
    rw [hset]
    rw [ih di a (mid.take j) ((key % 10 + 48) :: b) (key / 10)
      (by rw [List.length_take]; omega) ha]
    show _ = a ++ ((digitsBE j (key / 10) ++ [key % 10]).map (fun x => x + 48) ++ b)
    rw [List.map_append]
    simp [List.append_assoc]

theorem mkTemplate_decomp (tail : List Nat) (c : Nat) :
    mkTemplate tail c = (tail ++ [0, 0]) ++ (List.replicate 7 0 ++
      ([128] ++ (List.replicate (46 - tail.length) 0 ++
        be64 ((c * 64 + tail.length + 9) * 8)))) := by
  unfold mkTemplate
  have h9 : List.replicate 9 (0:Nat) = [0, 0] ++ List.replicate 7 0 := rfl
  rw [h9]
  simp [List.append_assoc]

theorem stampInner_mkTemplate (tail : List Nat) (c k : Nat) :
    stampInner (mkTemplate tail c) tail.length k =
      (tail ++ [0, 0]) ++ ((digitsBE 7 k).map (fun x => x + 48) ++
        ([128] ++ (List.replicate (46 - tail.length) 0 ++
          be64 ((c * 64 + tail.length + 9) * 8)))) := by
  rw [mkTemplate_decomp]
  exact stampGo_spec 7 tail.length (tail ++ [0, 0]) (List.replicate 7 0) _ k
    (by simp) (by simp)

theorem set2_lane_bytes (tail rest : List Nat) (v w : Nat) :
    (((tail ++ [0, 0]) ++ rest).set tail.length v).set (tail.length + 1) w =
      (tail ++ [v, w]) ++ rest := by
  have h1 : ((tail ++ [0, 0]) ++ rest).set tail.length v = (tail ++ [v, 0]) ++ rest := by
    rw [List.set_append_left _ _ (by simp)]
    congr 1
    rw [List.set_append_right _ _ (le_refl _), Nat.sub_self]
    rfl
  rw [h1]
  rw [List.set_append_left _ _ (by simp)]
  congr 1
  rw [List.set_append_right _ _ (by omega)]
  rw [show tail.length + 1 - tail.length = 1 by omega]
  rfl

theorem stamped_template_eq (tail : List Nat) (c k np : Nat) :
    stampLaneSet (stampInner (mkTemplate tail c) tail.length k) tail.length np =
      (tail ++ [np / 10 + 48, np % 10 + 48]) ++
        ((digitsBE 7 k).map (fun x => x + 48) ++
          ([128] ++ (List.replicate (46 - tail.length) 0 ++
            be64 ((c * 64 + tail.length + 9) * 8)))) := by
  rw [stampInner_mkTemplate]
  unfold stampLaneSet
  exact set2_lane_bytes tail _ _ _

theorem template_getD_zero (tail : List Nat) (c k : Nat) (j : Nat) (hj : j < 2) :
    (stampInner (mkTemplate tail c) tail.length k).getD (tail.length + j) 0 = 0 := by
  rw [stampInner_mkTemplate]
  rw [List.getD_append _ _ _ _ (by simp; omega)]
  rw [List.getD_append_right _ _ _ _ (by simp)]
  interval_cases j
  · simp
  · simp

theorem candMsg_eq_stamped (tail : List Nat) (c k p lane : Nat)
    (s : SingleBlockSolver16Way) (hm : s.message = mkTemplate tail c)
    (hd : s.digit_index = tail.length) (hp : p < 5) (hl : lane < 16) :
    candMsg s p k lane =
      stampLaneSet (stampInner s.message s.digit_index k) s.digit_index
        (10 + 16 * p + lane) := by
  unfold candMsg stampLaneSet
  rw [hm, hd]
  have hz0 := template_getD_zero tail c k 0 (by omega)
  have hz1 := template_getD_zero tail c k 1 (by omega)
  rw [Nat.add_zero] at hz0
  show ((stampInner (mkTemplate tail c) tail.length k).set tail.length
      (Nat.lor ((stampInner (mkTemplate tail c) tail.length k).getD tail.length 0)
        (laneChar0 (p * 16 + lane)))).set (tail.length + 1)
      (Nat.lor (((stampInner (mkTemplate tail c) tail.length k).set tail.length
          (Nat.lor ((stampInner (mkTemplate tail c) tail.length k).getD tail.length 0)
            (laneChar0 (p * 16 + lane)))).getD (tail.length + 1) 0)
        (laneChar1 (p * 16 + lane))) = _
  rw [hz0]
  rw [getD_set_ne _ _ _ _ (by omega), hz1]
  rw [lor_zero_left, lor_zero_left]
  have hc0 : laneChar0 (p * 16 + lane) = (10 + 16 * p + lane) / 10 + 48 := by
    unfold laneChar0
    omega
  have hc1 : laneChar1 (p * 16 + lane) = (10 + 16 * p + lane) % 10 + 48 := by
    unfold laneChar1
    omega
  rw [hc0, hc1]

/-!  Length and word-extraction facts about the compression pipeline.  -/

theorem expandSchedule_length (n : Nat) : ∀ w, (expandSchedule n w).length = w.length + n := by
  induction n with
  | zero => intro w; rfl
  | succ m ih =>
    intro w
    show (expandSchedule m (scheduleStep w)).length = _
    rw [ih]
    unfold scheduleStep
    simp
    omega

theorem do_message_schedule_ne_nil (w : List Nat) : do_message_schedule w ≠ [] := by
  intro h
  apply_fun List.length at h
  rw [do_message_schedule] at h
  rw [expandSchedule_length] at h
  simp at h

theorem foldl_shaRound_length (l : List (Nat × Nat)) : ∀ st : List Nat, l ≠ [] →
    (l.foldl shaRound st).length = 8 := by
  induction l with
  | nil => intro st h; exact absurd rfl h
  | cons x xs ih =>
    intro st _
    show (xs.foldl shaRound (shaRound st x)).length = 8
    cases hxs : xs with
    | nil => rfl
    | cons y ys =>
      rw [← hxs]
      exact ih (shaRound st x) (by rw [hxs]; simp)

theorem compressNF_length (st sched : List Nat) (h : sched ≠ []) :
    (compressNF st sched).length = 8 := by
  unfold compressNF
  apply foldl_shaRound_length
  cases sched with
  | nil => exact absurd rfl h
  | cons y ys => intro hzip; simp [K256] at hzip

theorem zipWith_mod_getD (st nf : List Nat) (i : Nat) (h1 : i < st.length)
    (h2 : i < nf.length) :
    (List.zipWith (fun a b => (a + b) % 2^32) st nf).getD i 0 =
      (st.getD i 0 + nf.getD i 0) % 2^32 := by
  rw [List.getD_eq_getElem _ _ (by rw [List.length_zipWith]; omega)]
  rw [List.getElem_zipWith]
  rw [List.getD_eq_getElem _ _ h1, List.getD_eq_getElem _ _ h2]

theorem compress_getD (st block : List Nat) (i : Nat) (h8 : st.length = 8) (hi : i < 8) :
    (compress_block_reference st block).getD i 0 =
      (st.getD i 0 + (compressNF st (do_message_schedule block)).getD i 0) % 2^32 := by
  unfold compress_block_reference
  exact zipWith_mod_getD _ _ i (by omega)
    (by rw [compressNF_length _ _ (do_message_schedule_ne_nil block)]; omega)

theorem compress_length (st block : List Nat) (h8 : st.length = 8) :
    (compress_block_reference st block).length = 8 := by
  unfold compress_block_reference
  rw [List.length_zipWith]
  rw [compressNF_length _ _ (do_message_schedule_ne_nil block), h8]
  rfl

theorem compress_getD_lt (st block : List Nat) (i : Nat) (h8 : st.length = 8) :
    (compress_block_reference st block).getD i 0 < 2^32 := by
  by_cases hi : i < 8
  · rw [compress_getD st block i h8 hi]
    exact Nat.mod_lt _ (by norm_num)
  · rw [List.getD_eq_default _ _ (by rw [compress_length st block h8]; omega)]
    norm_num

theorem sha256run_length (blocks : List (List Nat)) : ∀ st : List Nat, st.length = 8 →
    (sha256run st blocks).length = 8 := by
  induction blocks with
  | nil => intro st h; exact h
  | cons b bs ih =>
    intro st h
    rw [sha256run_cons]
    exact ih _ (compress_length _ _ h)

theorem IV256_length : IV256.length = 8 := rfl

/-!  Chunking of messages whose head length is a multiple of 64.  -/

theorem chunk64_singleton (l : List Nat) (h : l.length = 64) : chunk64 l = [l] := by
  rw [chunk64_cons l (by intro hn; subst hn; simp at h)]
  rw [List.take_of_length_le (by omega)]
  rw [List.drop_eq_nil_of_le (by omega)]
  rfl

theorem chunk64_append_mul (q : Nat) : ∀ (a b : List Nat), a.length = q * 64 →
    chunk64 (a ++ b) = chunk64 a ++ chunk64 b := by
  induction q with
  | zero =>
    intro a b ha
    have : a = [] := List.length_eq_zero.mp (by omega)
    subst this
    simp [chunk64_nil]
  | succ j ih =>
    intro a b ha
    have h64 : (a.take 64).length = 64 := by
      rw [List.length_take]
      omega
    have hd : (a.drop 64).length = j * 64 := by
      rw [List.length_drop]
      omega
    calc chunk64 (a ++ b) = chunk64 ((a.take 64 ++ a.drop 64) ++ b) := by
          rw [List.take_append_drop]
    _ = chunk64 (a.take 64 ++ (a.drop 64 ++ b)) := by rw [List.append_assoc]
    _ = a.take 64 :: chunk64 (a.drop 64 ++ b) := chunk64_append_block _ _ h64
    _ = a.take 64 :: (chunk64 (a.drop 64) ++ chunk64 b) := by rw [ih (a.drop 64) b hd]
    _ = (a.take 64 :: chunk64 (a.drop 64)) ++ chunk64 b := rfl
    _ = chunk64 (a.take 64 ++ a.drop 64) ++ chunk64 b := by
          rw [chunk64_append_block _ _ h64]
    _ = chunk64 a ++ chunk64 b := by rw [List.take_append_drop]

theorem sha256run_append (st : List Nat) (xs ys : List (List Nat)) :
    sha256run st (xs ++ ys) = sha256run (sha256run st xs) ys := by
  unfold sha256run
  rw [List.foldl_append]

/-!  The stamped digit window spells the nine nonce digits.  -/

theorem digits9_join (np k : Nat) (hnp : np ≤ 99) (hk : k < 10000000) :
    (np / 10 + 48) :: ((np % 10 + 48) :: (digitsBE 7 k).map (fun x => x + 48)) =
    (digitsBE 9 (np * 10000000 + k)).map (fun x => x + 48) := by
  have hsplit := digitsBE_add_split 7 2 (np * 10000000 + k)
  have h7 : (10:Nat)^7 = 10000000 := by norm_num
  rw [h7] at hsplit
  have hdiv : (np * 10000000 + k) / 10000000 = np := by omega
  have hmod : (np * 10000000 + k) % 10000000 = k := by omega
  rw [hdiv, hmod] at hsplit
  show _ = (digitsBE (2 + 7) (np * 10000000 + k)).map (fun x => x + 48)
  rw [hsplit, List.map_append]
  have h2 : digitsBE 2 np = [np / 10, np % 10] := by
    show digitsBE 1 (np / 10) ++ [np % 10] = _
    show (digitsBE 0 (np / 10 / 10) ++ [np / 10 % 10]) ++ _ = _
    have : np / 10 % 10 = np / 10 := by omega
    rw [this]
    rfl
  rw [h2]
  rfl

theorem be64_length (v : Nat) : (be64 v).length = 8 := rfl

theorem stamped_template_digits9 (tail : List Nat) (c k np : Nat) (hnp : np ≤ 99)
    (hk : k < 10000000) :
    stampLaneSet (stampInner (mkTemplate tail c) tail.length k) tail.length np =
      tail ++ ((digitsBE 9 (np * 10000000 + k)).map (fun x => x + 48) ++
        ([128] ++ (List.replicate (46 - tail.length) 0 ++
          be64 ((c * 64 + tail.length + 9) * 8)))) := by
  rw [stamped_template_eq]
  rw [List.append_assoc]
  congr 1
  rw [← digits9_join np k hnp hk]
  rfl

/-!  Hash framing: padding and chunking of `pfx ++ ascii(nonce)` reproduce
exactly the blocks the solver absorbed plus the stamped template.  -/

theorem append_head_split (x : List Nat) (n : Nat) (rest : List Nat) :
    x ++ rest = x.take n ++ (x.drop n ++ rest) := by
  rw [← List.append_assoc, List.take_append_drop]

theorem framing_nofiller (pfx : List Nat) (np k : Nat) (hnp10 : 10 ≤ np) (hnp99 : np ≤ 89)
    (hk : k < 10000000) (hsmall : pfx.length % 64 + 9 + 9 ≤ 64) :
    sha256full (pfx ++ asciiDec (np * 10000000 + k)) =
      compress_block_reference (sha256run IV256 (chunk64 (pfx.take (pfx.length / 64 * 64))))
        (bytesToWords (stampLaneSet
          (stampInner (mkTemplate (pfx.drop (pfx.length / 64 * 64)) (pfx.length / 64))
            (pfx.drop (pfx.length / 64 * 64)).length k)
          (pfx.drop (pfx.length / 64 * 64)).length np)) := by
  have htlen : (pfx.drop (pfx.length / 64 * 64)).length = pfx.length % 64 := by
    simp only [List.length_drop]
    omega
  rw [stamped_template_digits9 _ _ _ _ (by omega) hk]
  rw [htlen]
  have hbe : (pfx.length / 64 * 64 + pfx.length % 64 + 9) * 8 = (pfx.length + 9) * 8 := by
    omega
  rw [hbe]
  have hnlo : 100000000 ≤ np * 10000000 + k := by omega
  have hnhi : np * 10000000 + k < 1000000000 := by omega
  have hascii : asciiDec (np * 10000000 + k) =
      (digitsBE 9 (np * 10000000 + k)).map (fun x => x + 48) := by
    have h := asciiDec_of_bounds 8 (np * 10000000 + k) (by norm_num; omega)
      (by norm_num; omega)
    simpa using h
  have hlen9 : (asciiDec (np * 10000000 + k)).length = 9 := by
    rw [hascii]
    simp [digitsBE_length]
  unfold sha256full sha256pad
  have hXlen : (pfx ++ asciiDec (np * 10000000 + k)).length = pfx.length + 9 := by
    rw [List.length_append, hlen9]
  rw [hXlen]
  have hz : (119 - (pfx.length + 9) % 64) % 64 = 46 - pfx.length % 64 := by omega
  rw [hz]
  have hsplit : pfx ++ asciiDec (np * 10000000 + k) ++ [128] ++
      List.replicate (46 - pfx.length % 64) 0 ++ be64 ((pfx.length + 9) * 8) =
      pfx.take (pfx.length / 64 * 64) ++ (pfx.drop (pfx.length / 64 * 64) ++
        ((digitsBE 9 (np * 10000000 + k)).map (fun x => x + 48) ++
          ([128] ++ (List.replicate (46 - pfx.length % 64) 0 ++
            be64 ((pfx.length + 9) * 8))))) := by
    rw [hascii]
    simp only [List.append_assoc]
    exact append_head_split pfx (pfx.length / 64 * 64) _
  rw [hsplit]
  rw [chunk64_append_mul (pfx.length / 64) _ _ (by rw [List.length_take]; omega)]
  rw [sha256run_append]
  have hc := chunk64_singleton (pfx.drop (pfx.length / 64 * 64) ++
      ((digitsBE 9 (np * 10000000 + k)).map (fun x => x + 48) ++
        ([128] ++ (List.replicate (46 - pfx.length % 64) 0 ++ be64 ((pfx.length + 9) * 8)))))
    (by simp only [List.length_append, List.length_map, digitsBE_length, List.length_replicate,
          List.length_cons, List.length_nil, htlen, be64_length]
        omega)
  rw [hc]
  rfl


theorem framing_filler (pfx : List Nat) (np k : Nat) (hnp10 : 10 ≤ np) (hnp99 : np ≤ 89)
    (hk : k < 10000000) (hbig : 64 < pfx.length % 64 + 9 + 9) :
    sha256full (pfx ++ asciiDec (fillerAddend (64 - pfx.length % 64) * 1000000000 +
        (np * 10000000 + k))) =
      compress_block_reference
        (compress_block_reference
          (sha256run IV256 (chunk64 (pfx.take (pfx.length / 64 * 64))))
          (bytesToWords (pfx.drop (pfx.length / 64 * 64) ++
            List.replicate (64 - pfx.length % 64) 49)))
        (bytesToWords (stampLaneSet (stampInner (mkTemplate [] (pfx.length / 64 + 1)) 0 k)
          0 np)) := by
  have htlen : (pfx.drop (pfx.length / 64 * 64)).length = pfx.length % 64 := by
    simp only [List.length_drop]
    omega
  have hm1 : 1 ≤ 64 - pfx.length % 64 := by omega
  have hA1 : 1 ≤ fillerAddend (64 - pfx.length % 64) := fillerAddend_ge_one _ hm1
  have hMfinal := stamped_template_digits9 [] (pfx.length / 64 + 1) k np (by omega) hk
  simp only [List.length_nil, List.nil_append, Nat.sub_zero] at hMfinal
  rw [hMfinal]
  have hnlo : 100000000 ≤ np * 10000000 + k := by omega
  have hnhi : np * 10000000 + k < 1000000000 := by omega
  have hascii : asciiDec (fillerAddend (64 - pfx.length % 64) * 1000000000 +
      (np * 10000000 + k)) =
      List.replicate (64 - pfx.length % 64) 49 ++
        (digitsBE 9 (np * 10000000 + k)).map (fun x => x + 48) := by
    unfold asciiDec
    have h9 : fillerAddend (64 - pfx.length % 64) * 1000000000 + (np * 10000000 + k) =
        fillerAddend (64 - pfx.length % 64) * 10 ^ 9 + (np * 10000000 + k) := by norm_num
    rw [h9]
    rw [decDigits_reverse_mul_pow_add 9 _ _ hA1 (by norm_num; omega)]
    rw [List.map_append]
    rw [decDigits_fillerAddend _ hm1, List.reverse_replicate, List.map_replicate]
  have hlenAsc : (asciiDec (fillerAddend (64 - pfx.length % 64) * 1000000000 +
      (np * 10000000 + k))).length = (64 - pfx.length % 64) + 9 := by
    rw [hascii]
    simp [digitsBE_length]
  unfold sha256full sha256pad
  have hXlen : (pfx ++ asciiDec (fillerAddend (64 - pfx.length % 64) * 1000000000 +
      (np * 10000000 + k))).length = pfx.length + (64 - pfx.length % 64) + 9 := by
    rw [List.length_append, hlenAsc]
    omega
  rw [hXlen]
  have hz : (119 - (pfx.length + (64 - pfx.length % 64) + 9) % 64) % 64 = 46 := by omega
  rw [hz]
  have hbe : (pfx.length + (64 - pfx.length % 64) + 9) * 8 =
      ((pfx.length / 64 + 1) * 64 + 0 + 9) * 8 := by omega
  rw [hbe]
  have hsplit : pfx ++ asciiDec (fillerAddend (64 - pfx.length % 64) * 1000000000 +
        (np * 10000000 + k)) ++ [128] ++ List.replicate 46 0 ++
        be64 (((pfx.length / 64 + 1) * 64 + 0 + 9) * 8) =
      pfx.take (pfx.length / 64 * 64) ++ (pfx.drop (pfx.length / 64 * 64) ++
        (List.replicate (64 - pfx.length % 64) 49 ++
          ((digitsBE 9 (np * 10000000 + k)).map (fun x => x + 48) ++
            ([128] ++ (List.replicate 46 0 ++
              be64 (((pfx.length / 64 + 1) * 64 + 0 + 9) * 8)))))) := by
    rw [hascii]
    simp only [List.append_assoc]
    exact append_head_split pfx (pfx.length / 64 * 64) _
  rw [hsplit]
  rw [chunk64_append_mul (pfx.length / 64) _ _ (by rw [List.length_take]; omega)]
  rw [← List.append_assoc (pfx.drop (pfx.length / 64 * 64))
    (List.replicate (64 - pfx.length % 64) 49)]
  rw [chunk64_append_block _ _ (by
    simp only [List.length_append, List.length_replicate, htlen]
    omega)]
  rw [sha256run_append]
  have hc := chunk64_singleton ((digitsBE 9 (np * 10000000 + k)).map (fun x => x + 48) ++
      ([128] ++ (List.replicate 46 0 ++ be64 (((pfx.length / 64 + 1) * 64 + 0 + 9) * 8))))
    (by simp only [List.length_append, List.length_map, digitsBE_length, List.length_replicate,
          List.length_cons, List.length_nil, be64_length])
  rw [hc]
  rw [sha256run_cons]
  rfl


/-!  The acceptance test forces the digest above the target.  -/

theorem top128_lt_of_word0 (W0 W1 W2 W3 t0 t1 t2 t3 : Nat) (h0 : t0 < W0)
    (h1 : t1 < 2^32) (h2 : t2 < 2^32) (h3 : t3 < 2^32) :
    t0 * 2^96 + t1 * 2^64 + t2 * 2^32 + t3 < W0 * 2^96 + W1 * 2^64 + W2 * 2^32 + W3 := by
  have e32 : (2:Nat)^32 = 4294967296 := by norm_num
  have e64 : (2:Nat)^64 = 18446744073709551616 := by norm_num
  have e96 : (2:Nat)^96 = 79228162514264337593543950336 := by norm_num
  rw [e32] at h1 h2 h3
  rw [e32, e64, e96]
  nlinarith [Nat.mul_le_mul_right 79228162514264337593543950336 (show t0 + 1 ≤ W0 by omega)]

theorem accept_implies_target_lt (s : SingleBlockSolver16Way) (tail : List Nat) (c : Nat)
    (hmsg : s.message = mkTemplate tail c) (hdig : s.digit_index = tail.length)
    (hps8 : s.prefix_state.length = 8)
    (p k lane t0 t1 t2 t3 : Nat) (hp : p < 5) (hl : lane < 16)
    (hacc : laneAccept s t0 p k lane = true)
    (h1 : t1 < 2^32) (h2 : t2 < 2^32) (h3 : t3 < 2^32) :
    target128 [t0, t1, t2, t3] < top128 (compress_block_reference s.prefix_state
      (bytesToWords (stampLaneSet (stampInner s.message s.digit_index k) s.digit_index
        (10 + 16 * p + lane)))) := by
  unfold laneAccept at hacc
  rw [decide_eq_true_eq] at hacc
  rw [candMsg_eq_stamped tail c k p lane s hmsg hdig hp hl] at hacc
  have hW0 := compress_getD s.prefix_state
    (bytesToWords (stampLaneSet (stampInner s.message s.digit_index k) s.digit_index
      (10 + 16 * p + lane))) 0 hps8 (by omega)
  have ht0 : t0 < (compress_block_reference s.prefix_state
      (bytesToWords (stampLaneSet (stampInner s.message s.digit_index k) s.digit_index
        (10 + 16 * p + lane)))).getD 0 0 := by
    rw [hW0, Nat.add_comm]
    exact hacc
  show target128 [t0, t1, t2, t3] < top128 _
  unfold target128 top128
  simp only [List.getD_cons_zero, List.getD_cons_succ]
  exact top128_lt_of_word0 _ _ _ _ t0 t1 t2 t3 ht0 h1 h2 h3

/-- Proof correctness of the single-block solver (the half of the spec's
invariant 1 that the code does satisfy): if `new` succeeds on a prefix and
`solve` returns `Some((nonce, digest))`, then `digest` equals the top 16
bytes, read big-endian, of `SHA-256(prefix ∥ ascii(nonce))`, and `digest`
strictly exceeds the 128-bit target composed from the four target words. -/
theorem singleblock_proof_correctness (pfx : List Nat) (s : SingleBlockSolver16Way)
    (hnew : SingleBlockSolver16Way.new pfx = some s) (t0 t1 t2 t3 : Nat)
    (h1 : t1 < 2^32) (h2 : t2 < 2^32) (h3 : t3 < 2^32) (n d : Nat)
    (hsolve : s.solve [t0, t1, t2, t3] = some (n, d)) :
    top128 (sha256full (pfx ++ asciiDec n)) = d ∧ target128 [t0, t1, t2, t3] < d := by
  obtain ⟨p, k, lane, hfh, hn, hd⟩ := solve_eq_some_spec s _ n d hsolve
  obtain ⟨hp, hk, hl, hacc, _⟩ := firstHit_some_spec s _ p k lane hfh
  have hacc' : laneAccept s t0 p k lane = true := hacc
  have h7 : (10:Nat)^7 = 10000000 := by norm_num
  rw [h7] at hn
  rw [sNew_eq] at hnew
  have htlen : (pfx.drop (pfx.length / 64 * 64)).length = pfx.length % 64 := by
    simp only [List.length_drop]
    omega
  rcases sNewTail_some_spec _ _ _ s hnew with ⟨hbig, hov, hs⟩ | ⟨hsmall, hs⟩
  · -- filler-block branch
    rw [htlen] at hbig
    have hmsg : s.message = mkTemplate [] (pfx.length / 64 + 1) := by rw [hs]
    have hdig : s.digit_index = 0 := by rw [hs]
    have hps : s.prefix_state = compress_block_reference
        (sha256run IV256 (chunk64 (pfx.take (pfx.length / 64 * 64))))
        (bytesToWords (pfx.drop (pfx.length / 64 * 64) ++
          List.replicate (64 - pfx.length % 64) 49)) := by
      rw [hs]
      rw [htlen]
    have haddend : s.nonce_addend = fillerAddend (64 - pfx.length % 64) * 1000000000 := by
      rw [hs]
      rw [htlen]
    have hps8 : s.prefix_state.length = 8 := by
      rw [hps]
      exact compress_length _ _ (sha256run_length _ _ IV256_length)
    have hnn : n = fillerAddend (64 - pfx.length % 64) * 1000000000 +
        ((10 + 16 * p + lane) * 10000000 + k) := by
      rw [hn, haddend]
      ring
    constructor
    · rw [hd, hnn]
      rw [framing_filler pfx (10 + 16 * p + lane) k (by omega) (by omega) (by omega) hbig]
      rw [hps, hmsg, hdig]
    · rw [hd]
      exact accept_implies_target_lt s [] (pfx.length / 64 + 1) hmsg (by rw [hdig]; rfl)
        hps8 p k lane t0 t1 t2 t3 hp hl hacc' h1 h2 h3
  · -- no-filler branch
    rw [htlen] at hsmall
    have hmsg : s.message = mkTemplate (pfx.drop (pfx.length / 64 * 64))
        (pfx.length / 64) := by rw [hs]
    have hdig : s.digit_index = (pfx.drop (pfx.length / 64 * 64)).length := by rw [hs]
    have hps : s.prefix_state =
        sha256run IV256 (chunk64 (pfx.take (pfx.length / 64 * 64))) := by rw [hs]
    have haddend : s.nonce_addend = 0 := by rw [hs]
    have hps8 : s.prefix_state.length = 8 := by
      rw [hps]
      exact sha256run_length _ _ IV256_length
    have hnn : n = (10 + 16 * p + lane) * 10000000 + k := by
      rw [hn, haddend]
      omega
    constructor
    · rw [hd, hnn]
      rw [framing_nofiller pfx (10 + 16 * p + lane) k (by omega) (by omega) (by omega) hsmall]
      rw [hps, hmsg, hdig]
    · rw [hd]
      exact accept_implies_target_lt s (pfx.drop (pfx.length / 64 * 64)) (pfx.length / 64)
        hmsg hdig hps8 p k lane t0 t1 t2 t3 hp hl hacc' h1 h2 h3

/-- Witness instance for the single-block correctness theorem at the empty
prefix and difficulty-one target. -/
theorem singleblock_proof_correctness_witness :
    top128 (sha256full ([] ++ asciiDec 100000000)) =
        305201883868191114992932698686451729216 ∧
      target128 [0, 0, 0, 0] < 305201883868191114992932698686451729216 :=
  singleblock_proof_correctness [] sampleSolver (by decide) 0 0 0 0 (by decide) (by decide)
    (by decide) 100000000 305201883868191114992932698686451729216 (by decide)

/-!  Theorems about the target arithmetic (claims C7, C8, C10).  -/

/-- Shared evaluation lemma: the wrapping subtraction in `compute_target`
never wraps, so the result is the exact formula. -/
theorem compute_target_eval (d : Nat) (h1 : 1 ≤ d) :
    compute_target d = some ((2^128 - 1) - (2^128 - 1) / d) := by
  have hd0 : d ≠ 0 := by omega
  have hq : (2^128 - 1) / d ≤ 2^128 - 1 := Nat.div_le_self _ _
  simp only [compute_target, hd0, if_false]
  congr 1
  generalize (2^128 - 1) / d = q at hq
  omega

/-- C7: for every `difficulty_factor ≥ 1` (a 32-bit unsigned integer),
`compute_target` returns exactly `(2^128 - 1) - ⌊(2^128 - 1) / difficulty_factor⌋`,
computed in exact 128-bit unsigned arithmetic (the wrapping subtraction
never wraps). -/
theorem C7_target_formula (d : Nat) (h1 : 1 ≤ d) (_h32 : d < 2^32) :
    compute_target d = some ((2^128 - 1) - (2^128 - 1) / d) :=
  compute_target_eval d h1

/-- Witness for C7 at the spec's example difficulty 50000. -/
theorem C7_target_formula_witness :
    (1 ≤ 50000 ∧ 50000 < 2^32) ∧
      compute_target 50000 = some ((2^128 - 1) - (2^128 - 1) / 50000) :=
  ⟨⟨by decide, by decide⟩, C7_target_formula 50000 (by decide) (by decide)⟩

/-- Helper for C8: the quotient `(2^128 - 1) / d` strictly decreases on
`1 ≤ d1 < d2 < 2^32`. -/
theorem targetQuot_strict_anti (d1 d2 : Nat) (h1 : 1 ≤ d1) (h12 : d1 < d2)
    (h32 : d2 < 2^32) : (2^128 - 1) / d2 < (2^128 - 1) / d1 := by
  set M : Nat := 2^128 - 1 with hM
  have hd2 : 0 < d2 := by omega
  have hbig : (2^32 : Nat) ≤ M / (2^32 - 1) := by decide
  have hmono : M / (2^32 - 1) ≤ M / d2 :=
    Nat.div_le_div_left (by omega) (by omega)
  have hc : d1 < M / d2 := by omega
  have hb : d2 * (M / d2) ≤ M := by
    rw [Nat.mul_comm]
    exact Nat.div_mul_le_self M d2
  have hmul : (M / d2) * (d1 + 1) ≤ (M / d2) * d2 := Nat.mul_le_mul_left _ (by omega)
  have hstep : (M / d2 + 1) * d1 ≤ M := by nlinarith
  have : M / d2 + 1 ≤ M / d1 := (Nat.le_div_iff_mul_le (by omega)).mpr hstep
  omega

/-- C8: `compute_target` is strictly increasing on its domain: for 32-bit
unsigned integers `d1 < d2` with `d1 ≥ 1`,
`compute_target d1 < compute_target d2`. -/
theorem C8_target_monotone (d1 d2 t1 t2 : Nat) (h1 : 1 ≤ d1) (h12 : d1 < d2)
    (h32 : d2 < 2^32) (e1 : compute_target d1 = some t1)
    (e2 : compute_target d2 = some t2) : t1 < t2 := by
  rw [compute_target_eval d1 h1] at e1
  rw [compute_target_eval d2 (by omega)] at e2
  have hq := targetQuot_strict_anti d1 d2 h1 h12 h32
  have hle : (2^128 - 1) / d1 ≤ 2^128 - 1 := Nat.div_le_self _ _
  have et1 : t1 = (2^128 - 1) - (2^128 - 1) / d1 := by
    simpa using e1.symm
  have et2 : t2 = (2^128 - 1) - (2^128 - 1) / d2 := by
    simpa using e2.symm
  omega

/-- Witness for C8 at `d1 = 1`, `d2 = 2`. -/
theorem C8_target_monotone_witness :
    compute_target 1 = some 0 ∧
      compute_target 2 = some 170141183460469231731687303715884105728 ∧
      (0 : Nat) < 170141183460469231731687303715884105728 :=
  ⟨by decide, by decide,
   C8_target_monotone 1 2 0 170141183460469231731687303715884105728 (by decide)
     (by decide) (by decide) (by decide) (by decide)⟩

/-- C10: `compute_target(0)` divides by zero and fails (the `none` branch
of the model, a panic in Rust), and that failure branch is unreachable
exactly under the spec's precondition: for every `difficulty_factor ≥ 1`
the function returns normally. -/
theorem C10_target_zero_panics :
    compute_target 0 = none ∧ ∀ d, 1 ≤ d → (compute_target d).isSome := by
  constructor
  · rfl
  · intro d hd
    have hz : d ≠ 0 := by omega
    simp [compute_target, hz]

/-- Witness for C10's universally quantified part at `d = 5`. -/
theorem C10_target_zero_panics_witness : (compute_target 5).isSome :=
  C10_target_zero_panics.2 5 (by decide)

/-!  Claim C4: construction coverage over the test prefixes.  -/

/-- Little-endian 8-byte encoding of a length (`u64` little-endian). -/
def u64le (n : Nat) : List Nat :=
  [n % 256, n / 2^8 % 256, n / 2^16 % 256, n / 2^24 % 256,
   n / 2^32 % 256, n / 2^40 % 256, n / 2^48 % 256, n / 2^56 % 256]

/-- Modelled from the spec (§6 prefix contract; the `bincode` crate is
external): the test prefix for phrase length `L` — the salt byte `'z'`
followed by the bincode length-prefixed encoding of `"a"` repeated `L`
times, i.e. an 8-byte little-endian length then the phrase bytes. -/
def testPfx (L : Nat) : List Nat := 122 :: (u64le L ++ List.replicate L 97)

/-- C4: for every phrase length `L ∈ 0..64`, at least one of the
single-block and double-block constructors succeeds on the test prefix
(`'z'` + length-prefixed `"a"*L`). -/
theorem C4_coverage :
    ∀ L : Fin 64, ((SingleBlockSolver16Way.new (testPfx L)).isSome ||
      (DoubleBlockSolver16Way.new (testPfx L)).isSome) = true := by decide

end S2P
